import Mathlib

/-!
# gt: a terminal front-end for git worktrees

A shallow embedding of `main.go` (package `main`): the worktree filter, the
Bubble Tea `Update` state machine, the `.gitignore` housekeeping, the frame
drawn by `View`, `createWorktree` and the two parsers of `getWorktrees`,
followed by the properties established about them.

Conventions of the embedding

* A Go `string` is its sequence of bytes (`GoString`); `len` is `List.length`.
* A Go `int` is an `Int` holding a 64-bit value. The arithmetic of `View` on the
  window height and the scroll offset can leave the 64-bit range and wraps
  around (`wrap64`); the arithmetic of `Update` is guarded (`cursor > 0`,
  `cursor < len - 1`, `len > 0`) and cannot.
* A Go `error` is `Option GoString`: `none` is `nil`, `some e` carries `e.Error()`.
* A `time.Time` is an `Int`, the nanoseconds elapsed since Go's zero time;
  `IsZero` is `= 0`, `After` is `>` and `Add` is `+`.
* The calls that leave the process (`git`, the clock, `chdir`, the environment)
  are answered by an explicit `World`, and `Update` returns the list of the calls
  it made next to the new model and command.
* A runtime panic (index out of range) is the result `none`.
* The functions of the Go library that need tables or the file system
  (`unicode`, `path/filepath`, `time.Parse`) are parameters.
-/

namespace Gt

/-! ## Go strings -/

/-- A Go string: an immutable sequence of bytes. -/
abbrev GoString := List UInt8

/-- The Go string literal with the given text: its UTF-8 encoding. -/
def str (s : String) : GoString := s.toUTF8.data.toList

/-- The slow paths of Go's `strings` package that consult the Unicode tables.
They are reached only by strings holding a byte `>= utf8.RuneSelf` (0x80); the
tables are not part of this repository, so the three functions are parameters
of the development. -/
structure Unicode where
  /-- Go's `strings.Map(unicode.ToLower, s)`. -/
  mapToLower : GoString → GoString
  /-- Go's `strings.TrimFunc(s, unicode.IsSpace)`. -/
  trimFuncIsSpace : GoString → GoString
  /-- Go's `strings.TrimRightFunc(s, unicode.IsSpace)`. -/
  trimRightFuncIsSpace : GoString → GoString

/-- A `Unicode` that leaves strings alone; enough to run the program on ASCII text. -/
def Unicode.ascii : Unicode := ⟨id, id, id⟩

namespace strings

/-- Go's `strings.HasPrefix(s, prefix)`. -/
def HasPrefix (s pre : GoString) : Bool := pre.isPrefixOf s

/-- Go's `strings.HasSuffix(s, suffix)`. -/
def HasSuffix (s suf : GoString) : Bool := suf.isSuffixOf s

/-- Go's `strings.TrimPrefix(s, prefix)`. -/
def TrimPrefix (s pre : GoString) : GoString :=
  if HasPrefix s pre then s.drop pre.length else s

/-- Go's `strings.Contains(s, substr)`: `substr` starts at some position of `s`. -/
def Contains : GoString → GoString → Bool
  | [], substr => substr.isEmpty
  | c :: s, substr => substr.isPrefixOf (c :: s) || Contains s substr

/-- The byte-wise lower-casing of the ASCII fast path of `strings.ToLower`. -/
def lowerASCII (c : UInt8) : UInt8 :=
  if 65 ≤ c ∧ c ≤ 90 then c + 32 else c

/-- Go's `strings.ToLower(s)`: ASCII-only strings are lower-cased byte by byte,
the others go through the Unicode tables. -/
def ToLower (u : Unicode) (s : GoString) : GoString :=
  if s.all (fun c => c < 128) then s.map lowerASCII else u.mapToLower s

/-- The loop of `strings.Split(s, sep)` for a separator of one byte: `cur` is the
piece being read. -/
def splitLoop (sep : UInt8) : GoString → GoString → List GoString
  | [], cur => [cur]
  | c :: s, cur => if c = sep then cur :: splitLoop sep s [] else splitLoop sep s (cur ++ [c])

/-- Go's `strings.Split(s, sep)` for a separator of one byte. -/
def Split (s : GoString) (sep : UInt8) : List GoString := splitLoop sep s []

/-- The table `asciiSpace` of package `strings`: tab, newline, vertical tab,
form feed, carriage return and space. -/
def asciiSpace (c : UInt8) : Bool :=
  c = 9 || c = 10 || c = 11 || c = 12 || c = 13 || c = 32

/-- The second loop of `strings.TrimSpace`, on `s[start:]`. -/
def trimSpaceEnd (u : Unicode) (s : GoString) : GoString :=
  match s.reverse.dropWhile asciiSpace with
  | [] => []
  | c :: r => if c ≥ 128 then u.trimRightFuncIsSpace (c :: r).reverse else (c :: r).reverse

/-- Go's `strings.TrimSpace(s)`. -/
def TrimSpace (u : Unicode) (s : GoString) : GoString :=
  match s.dropWhile asciiSpace with
  | [] => []
  | c :: r => if c ≥ 128 then u.trimFuncIsSpace (c :: r) else trimSpaceEnd u (c :: r)

/-- Go's `strings.TrimRight(s, cutset)` for a cutset of one ASCII byte. -/
def TrimRight (s : GoString) (cut : UInt8) : GoString :=
  (s.reverse.dropWhile (fun c => c = cut)).reverse

end strings

/-! ## Data model -/

/-- A `time.Time`: nanoseconds since Go's zero time. -/
abbrev Time := Int

/-- The constant `time.Second`, in nanoseconds. -/
def Second : Int := 1000000000

/-- The struct `Config`. -/
structure Config where
  WorktreeDir : GoString := []
  Shell : GoString := []
  deriving DecidableEq, Repr

/-- The struct `CommitInfo`. -/
structure CommitInfo where
  Hash : GoString := []
  Message : GoString := []
  Date : Time := 0
  Author : GoString := []
  deriving DecidableEq, Repr

/-- The struct `Worktree`. -/
structure Worktree where
  Path : GoString := []
  Branch : GoString := []
  Head : GoString := []
  IsDirty : Bool := false
  LastCommit : CommitInfo := {}
  IsCurrent : Bool := false
  deriving DecidableEq, Repr

/-- The type `inputMode` with its four constants, in `iota` order. -/
inductive inputMode where
  | modeNormal
  | modeSearch
  | modeNewBranch
  | modeNewPath
  deriving DecidableEq, Repr

open inputMode

/-- The struct `model`. The pointer `deleteTarget` is held by value: it is
taken from `filtered` while the overlay opens and the list cannot change until
the overlay closes. -/
structure model where
  worktrees : List Worktree := []
  filtered : List Worktree := []
  cursor : Int := 0
  scrollOffset : Int := 0
  searchTerm : GoString := []
  width : Int := 0
  height : Int := 0
  quitting : Bool := false
  inputMode : inputMode := modeNormal
  inputValue : GoString := []
  confirmDelete : Bool := false
  deleteTarget : Option Worktree := none
  repoPath : GoString := []
  config : Option Config := none
  err : Option GoString := none
  statusMessage : GoString := []
  statusTimeout : Time := 0
  deriving DecidableEq, Repr

/-! ## The filter -/

/-- The condition of the `if` in the loop of `filterWorktrees`; `search` is
already lower-cased. -/
def filterWorktrees.keep (u : Unicode) (search : GoString) (wt : Worktree) : Bool :=
  strings.Contains (strings.ToLower u wt.Branch) search ||
  strings.Contains (strings.ToLower u wt.LastCommit.Message) search ||
  strings.Contains (strings.ToLower u wt.Path) search

/-- The `for range` loop of `filterWorktrees`, appending to `filtered`. -/
def filterWorktrees.loop (u : Unicode) (search : GoString) :
    List Worktree → List Worktree → List Worktree
  | [], filtered => filtered
  | wt :: rest, filtered =>
    if filterWorktrees.keep u search wt then
      filterWorktrees.loop u search rest (filtered ++ [wt])
    else
      filterWorktrees.loop u search rest filtered

/-- The function `filterWorktrees`. -/
def filterWorktrees (u : Unicode) (worktrees : List Worktree) (search : GoString) :
    List Worktree :=
  if search = [] then worktrees
  else filterWorktrees.loop u (strings.ToLower u search) worktrees []

/-! ## The session state machine -/

/-- The messages delivered to `Update`. A `tea.KeyMsg` is represented by the
value of its `String()` method; `other` is a message of any other type. -/
inductive Msg where
  | WindowSizeMsg (Width Height : Int)
  | tickMsg (t : Time)
  | KeyMsg (key : GoString)
  | other
  deriving DecidableEq, Repr

/-- The commands returned by `Update`: `nil`, `tea.Quit`, `tickCmd()` and the
`tea.ExecProcess` of a shell in a directory. -/
inductive Cmd where
  | nil
  | Quit
  | tickCmd
  | ExecProcess (shell dir : GoString)
  deriving DecidableEq, Repr

/-- The calls `Update` makes outside the process, with their arguments. -/
inductive Call where
  | deleteWorktree (repoPath worktreePath : GoString)
  | createWorktree (repoPath branch : GoString) (config : Option Config)
  | getWorktrees (repoPath : GoString)
  | Chdir (dir : GoString)
  | Printf (text : GoString)
  deriving DecidableEq, Repr

/-- The answers of the outside world during one call of `Update`: the clock,
the three git operations, `os.Chdir` and the variable `SHELL`. -/
structure World where
  now : Time
  deleteWorktree : GoString → GoString → Option GoString
  createWorktree : GoString → GoString → Option Config → Option GoString
  getWorktrees : GoString → Except GoString (List Worktree)
  Chdir : GoString → Option GoString
  SHELL : GoString

/-- What one call of `Update` produces: the model, the command and the outside
calls made, in order. -/
structure Result where
  m : model
  cmd : Cmd
  calls : List Call
  deriving DecidableEq, Repr

/-- The slice index expression `s[i]` for an `int` index; `none` is the panic. -/
def index {α : Type} (s : List α) (i : Int) : Option α :=
  if 0 ≤ i then s[i.toNat]? else none

/-- The function `getShell`; `envShell` is the value of `os.Getenv("SHELL")`. -/
def getShell (config : Option Config) (envShell : GoString) : GoString :=
  match config with
  | some c => if c.Shell ≠ [] then c.Shell else if envShell ≠ [] then envShell else str "/bin/bash"
  | none => if envShell ≠ [] then envShell else str "/bin/bash"

/-- The function `initialModel`, given the results of `getCurrentRepoPath`,
`loadConfig` and `getWorktrees`. -/
def initialModel (repo : Except GoString GoString) (loaded : Option Config)
    (listing : Except GoString (List Worktree)) : model :=
  match repo with
  | .error err => { err := some err }
  | .ok repoPath =>
    match listing with
    | .error err => { err := some err }
    | .ok worktrees =>
      { worktrees := worktrees, filtered := worktrees, repoPath := repoPath,
        config := some (loaded.getD {}) }

/-- The branch `if m.confirmDelete` of `Update`. -/
def model.updateConfirmDelete (u : Unicode) (w : World) (m : model) (key : GoString) :
    Option Result :=
  if key = str "y" ∨ key = str "Y" then
    match m.deleteTarget with
    | some target =>
      match w.deleteWorktree m.repoPath target.Path with
      | some err =>
        some ⟨{ m with err := some err, confirmDelete := false, deleteTarget := none },
          .tickCmd, [.deleteWorktree m.repoPath target.Path]⟩
      | none =>
        let m1 := { m with statusMessage := str "Deleted worktree: " ++ target.Branch,
                           statusTimeout := w.now + 3 * Second }
        let m2 := match w.getWorktrees m.repoPath with
          | .ok worktrees =>
            { m1 with worktrees := worktrees,
                      filtered := filterWorktrees u worktrees m1.searchTerm }
          | .error _ => m1
        some ⟨{ m2 with confirmDelete := false, deleteTarget := none }, .tickCmd,
          [.deleteWorktree m.repoPath target.Path, .getWorktrees m.repoPath]⟩
    | none => some ⟨{ m with confirmDelete := false, deleteTarget := none }, .tickCmd, []⟩
  else if key = str "n" ∨ key = str "N" ∨ key = str "esc" ∨ key = str "ctrl+c" then
    some ⟨{ m with confirmDelete := false, deleteTarget := none }, .nil, []⟩
  else some ⟨m, .nil, []⟩

/-- The case `modeSearch` of `Update`. -/
def model.updateSearch (u : Unicode) (m : model) (key : GoString) : Option Result :=
  if key = str "esc" ∨ key = str "ctrl+c" then
    some ⟨{ m with inputMode := modeNormal, searchTerm := [], filtered := m.worktrees }, .nil, []⟩
  else if key = str "enter" then
    some ⟨{ m with inputMode := modeNormal }, .nil, []⟩
  else if key = str "backspace" then
    if m.searchTerm.length > 0 then
      let term := m.searchTerm.take (m.searchTerm.length - 1)
      some ⟨{ m with searchTerm := term, filtered := filterWorktrees u m.worktrees term }, .nil, []⟩
    else some ⟨m, .nil, []⟩
  else if key.length = 1 then
    let term := m.searchTerm ++ key
    some ⟨{ m with searchTerm := term, filtered := filterWorktrees u m.worktrees term }, .nil, []⟩
  else some ⟨m, .nil, []⟩

/-- The case `modeNewBranch` of `Update`. -/
def model.updateNewBranch (u : Unicode) (w : World) (m : model) (key : GoString) :
    Option Result :=
  if key = str "esc" ∨ key = str "ctrl+c" then
    some ⟨{ m with inputMode := modeNormal, inputValue := [] }, .nil, []⟩
  else if key = str "enter" then
    if m.inputValue ≠ [] then
      match w.createWorktree m.repoPath m.inputValue m.config with
      | some err =>
        some ⟨{ m with err := some err, inputMode := modeNormal, inputValue := [] }, .tickCmd,
          [.createWorktree m.repoPath m.inputValue m.config]⟩
      | none =>
        let m1 := { m with statusMessage := str "Created worktree: " ++ m.inputValue,
                           statusTimeout := w.now + 3 * Second }
        let m2 := match w.getWorktrees m.repoPath with
          | .ok worktrees =>
            { m1 with worktrees := worktrees,
                      filtered := filterWorktrees u worktrees m1.searchTerm }
          | .error _ => m1
        some ⟨{ m2 with inputMode := modeNormal, inputValue := [] }, .tickCmd,
          [.createWorktree m.repoPath m.inputValue m.config, .getWorktrees m.repoPath]⟩
    else some ⟨{ m with inputMode := modeNormal, inputValue := [] }, .tickCmd, []⟩
  else if key = str "backspace" then
    if m.inputValue.length > 0 then
      some ⟨{ m with inputValue := m.inputValue.take (m.inputValue.length - 1) }, .nil, []⟩
    else some ⟨m, .nil, []⟩
  else if key.length = 1 ∨ key = str "/" ∨ key = str "-" then
    some ⟨{ m with inputValue := m.inputValue ++ key }, .nil, []⟩
  else some ⟨m, .nil, []⟩

/-- The case `"q", "ctrl+c"` of normal mode. -/
def model.caseQuit (m : model) : Option Result :=
  some ⟨{ m with quitting := true }, .Quit, []⟩

/-- The case `"up", "k"` of normal mode. -/
def model.caseUp (m : model) : Option Result :=
  if m.cursor > 0 then some ⟨{ m with cursor := m.cursor - 1 }, .nil, []⟩
  else some ⟨m, .nil, []⟩

/-- The case `"down", "j"` of normal mode. -/
def model.caseDown (m : model) : Option Result :=
  if m.cursor < (m.filtered.length : Int) - 1 then
    some ⟨{ m with cursor := m.cursor + 1 }, .nil, []⟩
  else some ⟨m, .nil, []⟩

/-- The case `"/"` of normal mode. -/
def model.caseSlash (m : model) : Option Result :=
  some ⟨{ m with inputMode := modeSearch, searchTerm := [] }, .nil, []⟩

/-- The case `"n"` of normal mode. -/
def model.caseNew (m : model) : Option Result :=
  some ⟨{ m with inputMode := modeNewBranch, inputValue := [] }, .nil, []⟩

/-- The case `"d"` of normal mode. -/
def model.caseDelete (m : model) : Option Result :=
  if m.cursor < (m.filtered.length : Int) then
    match index m.filtered m.cursor with
    | none => none
    | some wt =>
      if strings.HasSuffix m.repoPath wt.Path then
        some ⟨{ m with err := some (str "cannot delete main worktree") }, .nil, []⟩
      else
        some ⟨{ m with confirmDelete := true, deleteTarget := some wt }, .nil, []⟩
  else some ⟨m, .nil, []⟩

/-- The case `"r"` of normal mode. -/
def model.caseRefresh (u : Unicode) (w : World) (m : model) : Option Result :=
  match w.getWorktrees m.repoPath with
  | .ok worktrees =>
    some ⟨{ m with worktrees := worktrees,
                   filtered := filterWorktrees u worktrees m.searchTerm,
                   statusMessage := str "Refreshed",
                   statusTimeout := w.now + 2 * Second }, .tickCmd,
      [.getWorktrees m.repoPath]⟩
  | .error _ => some ⟨m, .tickCmd, [.getWorktrees m.repoPath]⟩

/-- The case `"enter"` of normal mode. -/
def model.caseEnter (w : World) (m : model) : Option Result :=
  if m.cursor < (m.filtered.length : Int) then
    match index m.filtered m.cursor with
    | none => none
    | some wt =>
      let text := str "\n\x1b[2mSwitching to " ++ wt.Path ++ str "...\x1b[0m\n"
      match w.Chdir wt.Path with
      | some err =>
        some ⟨{ m with quitting := true, err := some err }, .nil,
          [.Printf text, .Chdir wt.Path]⟩
      | none =>
        some ⟨{ m with quitting := true }, .ExecProcess (getShell m.config w.SHELL) wt.Path,
          [.Printf text, .Chdir wt.Path]⟩
  else some ⟨m, .nil, []⟩

/-- The case `default: // modeNormal` of `Update`: the `switch msg.String()`
over the cases above; a key of no case falls through to `return m, nil`. -/
def model.updateNormal (u : Unicode) (w : World) (m : model) (key : GoString) :
    Option Result :=
  if key = str "q" ∨ key = str "ctrl+c" then m.caseQuit
  else if key = str "up" ∨ key = str "k" then m.caseUp
  else if key = str "down" ∨ key = str "j" then m.caseDown
  else if key = str "/" then m.caseSlash
  else if key = str "n" then m.caseNew
  else if key = str "d" then m.caseDelete
  else if key = str "r" then m.caseRefresh u w
  else if key = str "enter" then m.caseEnter w
  else some ⟨m, .nil, []⟩

/-- The method `Update`. -/
def model.Update (u : Unicode) (w : World) (m : model) : Msg → Option Result
  | .WindowSizeMsg width height => some ⟨{ m with width := width, height := height }, .nil, []⟩
  | .tickMsg _ =>
    if m.statusTimeout ≠ 0 ∧ w.now > m.statusTimeout then
      some ⟨{ m with statusMessage := [], statusTimeout := 0 }, .tickCmd, []⟩
    else some ⟨m, .tickCmd, []⟩
  | .KeyMsg key =>
    if m.confirmDelete then m.updateConfirmDelete u w key
    else
      match m.inputMode with
      | modeSearch => m.updateSearch u key
      | modeNewBranch => m.updateNewBranch u w key
      | _ => m.updateNormal u w key
  | .other => some ⟨m, .nil, []⟩

/-! ## The ignore file -/

/-- The first statement of `ensureGitignoreEntry`: the entry is made to end in `/`. -/
def ensureGitignoreEntry.normalize (entry : GoString) : GoString :=
  if !strings.HasSuffix entry (str "/") then entry ++ str "/" else entry

/-- The body of `ensureGitignoreEntry` after the entry has been made to end in
`/`; `content` is what `os.ReadFile` returned (empty when the file does not
exist). The result is `none` when the function returns without writing and
`some newContent` when it calls `os.WriteFile` with `newContent`. -/
def ensureGitignoreEntry.body (u : Unicode) (content entry : GoString) : Option GoString :=
  -- byte 10 is "\n", byte 47 is "/"
  let lines := strings.Split content 10
  if lines.any (fun line =>
      let trimmed := strings.TrimSpace u line
      trimmed = entry || trimmed = strings.TrimRight entry 47) then none
  else
    let newContent :=
      if content.length > 0 ∧ !strings.HasSuffix content (str "\n") then content ++ str "\n"
      else content
    let hasWorktreeComment := lines.any (fun line => strings.Contains line (str "Git worktrees"))
    let newContent :=
      if !hasWorktreeComment ∧ content.length > 0 then newContent ++ str "\n# Git worktrees\n"
      else if content.length = 0 then str "# Git worktrees\n"
      else newContent
    some (newContent ++ entry ++ str "\n")

/-- The function `ensureGitignoreEntry` on the content of the ignore file. -/
def ensureGitignoreEntry (u : Unicode) (content entry : GoString) : Option GoString :=
  ensureGitignoreEntry.body u content (ensureGitignoreEntry.normalize entry)

/-- The content of the ignore file after a run of `ensureGitignoreEntry`. -/
def gitignoreAfter (u : Unicode) (content entry : GoString) : GoString :=
  (ensureGitignoreEntry u content entry).getD content

/-! ## The render projector -/

/-- One row written by the loop of `View`: the index `i`, whether it carries
the cursor marker (`i == m.cursor`), the branch label, the flags of the
worktree and the commit subject cut to 40 bytes. The lipgloss styles and the
relative time, which reads the clock, are left out. -/
structure Row where
  index : Int
  cursor : Bool
  branch : GoString
  current : Bool
  dirty : Bool
  commitMsg : GoString
  deriving DecidableEq, Repr

/-- What `View` draws, as data: the error screen, the delete prompt, or the
list with the mode line, the rows, the status message and the help line. -/
inductive Frame where
  | error (text : GoString)
  | confirm (title modeLine question : GoString)
  | list (title modeLine : GoString) (rows : List Row) (status help : GoString)
  deriving DecidableEq, Repr

/-- The least value of Go's `int`, 64 bits wide: `math.MinInt64`. -/
def minInt64 : Int := -9223372036854775808

/-- The greatest value of Go's `int`, 64 bits wide: `math.MaxInt64`. -/
def maxInt64 : Int := 9223372036854775807

/-- The value an `int` holds after an arithmetic operation whose exact result
is `x`: Go's signed arithmetic wraps around, so it is the number congruent to
`x` modulo 2^64 between `minInt64` and `maxInt64`. -/
def wrap64 (x : Int) : Int :=
  (x + 9223372036854775808) % 18446744073709551616 - 9223372036854775808

/-- The variable `viewportHeight` of `View`: `m.height - 8`, an `int`
subtraction that wraps around, replaced by 5 when it is less than 5. -/
def model.viewportHeight (m : model) : Int :=
  if wrap64 (m.height - 8) < 5 then 5 else wrap64 (m.height - 8)

/-- The statement `// Adjust scroll offset` of `View`: the value of
`m.scrollOffset` after it. The sum `m.scrollOffset+viewportHeight` wraps
around. In `m.cursor - viewportHeight + 1` the value taken away is at least 5,
so for a 64-bit cursor the exact result is below `maxInt64` and the only
wrap-around is the one below `minInt64`, by 2^64. -/
def model.adjustedScrollOffset (m : model) : Int :=
  if m.cursor ≥ wrap64 (m.scrollOffset + m.viewportHeight) then
    if m.cursor - m.viewportHeight + 1 < minInt64 then
      m.cursor - m.viewportHeight + 1 + 18446744073709551616
    else m.cursor - m.viewportHeight + 1
  else if m.cursor < m.scrollOffset then m.cursor
  else m.scrollOffset

/-- The body of the row loop of `View` for the index `i` and the worktree
`wt = m.filtered[i]`. -/
def model.viewRow (m : model) (i : Int) (wt : Worktree) : Row :=
  { index := i
    cursor := decide (i = m.cursor)
    branch := if wt.Branch = [] then str "(detached)" else wt.Branch
    current := wt.IsCurrent
    dirty := wt.IsDirty
    commitMsg :=
      if wt.LastCommit.Message.length > 40 then wt.LastCommit.Message.take 40 ++ str "..."
      else wt.LastCommit.Message }

/-- The row loop of `View`, `n` iterations from the index `i` on; the read
`m.filtered[i]` panics outside the list. -/
def model.viewLoop (m : model) : Nat → Int → Option (List Row)
  | 0, _ => some []
  | n + 1, i =>
    match index m.filtered i with
    | none => none
    | some wt => (model.viewLoop m n (i + 1)).map (fun rows => m.viewRow i wt :: rows)

/-- The rows written by `View` for a non-empty filtered list: the loop
`for i := m.scrollOffset; i < len(m.filtered) && i < m.scrollOffset+viewportHeight; i++`
after the scroll offset has been adjusted; the sum in the loop condition
wraps around. -/
def model.viewRows (m : model) : Option (List Row) :=
  let scrollOffset := m.adjustedScrollOffset
  let stop := min (m.filtered.length : Int) (wrap64 (scrollOffset + m.viewportHeight))
  m.viewLoop (stop - scrollOffset).toNat scrollOffset

/-- The mode line of `View` (`// Search or input`). -/
def model.viewModeLine (m : model) : GoString :=
  match m.inputMode with
  | modeSearch => str "Search: " ++ m.searchTerm ++ str "█\n\n"
  | modeNewBranch => str "New branch name: " ++ m.inputValue ++ str "█\n\n"
  | _ => if m.searchTerm ≠ [] then str "Search: " ++ m.searchTerm ++ str "\n\n" else str "\n"

/-- The help line of `View` (`// Help`). -/
def model.viewHelp (m : model) : GoString :=
  if m.inputMode = modeNormal then
    str "[n]ew  [d]elete  [enter] switch  [/] search  [r]efresh  [q]uit"
  else str "[enter] confirm  [esc] cancel"

/-- The method `View`; `none` is a panic of the row loop. -/
def model.View (m : model) : Option Frame :=
  match m.err with
  | some err => some (.error (str "Error: " ++ err ++ str "\n\nPress q to quit."))
  | none =>
    let title := str "Git Worktrees - " ++ m.repoPath
    match m.confirmDelete, m.deleteTarget with
    | true, some target =>
      some (.confirm title m.viewModeLine
        (str "\nDelete worktree '" ++ target.Branch ++ str "'? [y/N] "))
    | _, _ =>
      if m.filtered.length = 0 then
        some (.list title m.viewModeLine [] m.statusMessage m.viewHelp)
      else
        m.viewRows.map (fun rows => .list title m.viewModeLine rows m.statusMessage m.viewHelp)

/-! ## Creating a worktree -/

/-- Go's `strings.ReplaceAll(s, old, new)` for `old` and `new` of one byte each. -/
def strings.ReplaceAll (s : GoString) (old new : UInt8) : GoString :=
  s.map (fun c => if c = old then new else c)

/-- The functions of Go's `path/filepath` that `createWorktree` calls; they are
not part of this repository and are parameters of the development. `Rel` is
the path returned by `filepath.Rel`, whose error the program drops. -/
structure Filepath where
  IsAbs : GoString → Bool
  Join : GoString → GoString → GoString
  Rel : GoString → GoString → GoString

/-- The answers of the outside world during one call of `createWorktree`:
`os.MkdirAll`, the call of `ensureGitignoreEntry` (its error) and the `git`
commands, which answer to a directory and an argument list with their output
and their error. -/
structure CreateWorld where
  MkdirAll : GoString → Option GoString
  ensureGitignoreEntry : GoString → GoString → Option GoString
  git : GoString → List GoString → GoString × Option GoString

/-- The calls `createWorktree` makes outside the process, with their arguments. -/
inductive SysCall where
  | MkdirAll (path : GoString)
  | ensureGitignoreEntry (repoPath entry : GoString)
  | Warning (text : GoString)
  | git (dir : GoString) (args : List GoString)
  deriving DecidableEq, Repr

/-- The storage directory of `createWorktree` (`// Determine worktree
directory` and `// Handle absolute vs relative paths`). -/
def createWorktree.worktreeDir (fp : Filepath) (repoPath : GoString) (config : Option Config) :
    GoString :=
  let worktreeDir :=
    match config with
    | some c => if c.WorktreeDir ≠ [] then c.WorktreeDir else str ".worktrees"
    | none => str ".worktrees"
  if !fp.IsAbs worktreeDir then fp.Join repoPath worktreeDir else worktreeDir

/-- The argument list of the `git worktree add` command that `createWorktree`
builds (`// Check if branch exists locally or remotely`), given the error of
`git rev-parse --verify` and the output and error of `git ls-remote --heads`. -/
def createWorktree.addArgs (localErr : Option GoString) (remote : GoString × Option GoString)
    (branch worktreePath : GoString) : List GoString :=
  if localErr ≠ none then
    if remote.2 ≠ none ∨ remote.1.length = 0 then
      [str "worktree", str "add", str "-b", branch, worktreePath]
    else
      [str "worktree", str "add", worktreePath, branch]
  else
    [str "worktree", str "add", worktreePath, branch]

/-- The statement `// Add worktree directory to .gitignore if it's within the
repo` of `createWorktree`: the calls it makes. -/
def createWorktree.ignoreCalls (fp : Filepath) (cw : CreateWorld)
    (repoPath worktreeDir : GoString) : List SysCall :=
  if strings.HasPrefix worktreeDir repoPath then
    let relPath := fp.Rel repoPath worktreeDir
    if relPath ≠ [] ∧ !strings.HasPrefix relPath (str "..") then
      match cw.ensureGitignoreEntry repoPath relPath with
      | some err =>
        [.ensureGitignoreEntry repoPath relPath,
          .Warning (str "Warning: Could not update .gitignore: " ++ err ++ str "\n")]
      | none => [.ensureGitignoreEntry repoPath relPath]
    else []
  else []

/-- The `git` commands `createWorktree` runs to find the branch: the local
check, and the query of the remote heads when the local check failed. -/
def createWorktree.probes (cw : CreateWorld) (repoPath branch : GoString) : List SysCall :=
  let revParse := [str "rev-parse", str "--verify", branch]
  let lsRemote := [str "ls-remote", str "--heads", str "origin", branch]
  if (cw.git repoPath revParse).2 ≠ none then [.git repoPath revParse, .git repoPath lsRemote]
  else [.git repoPath revParse]

/-- The function `createWorktree`: its error and the outside calls it made, in
order. -/
def createWorktree (fp : Filepath) (cw : CreateWorld) (repoPath branch : GoString)
    (config : Option Config) : Option GoString × List SysCall :=
  let worktreeDir := createWorktree.worktreeDir fp repoPath config
  match cw.MkdirAll worktreeDir with
  | some err => (some err, [.MkdirAll worktreeDir])
  | none =>
    let worktreePath := fp.Join worktreeDir (strings.ReplaceAll branch 47 45)
    let add := createWorktree.addArgs
      (cw.git repoPath [str "rev-parse", str "--verify", branch]).2
      (cw.git repoPath [str "ls-remote", str "--heads", str "origin", branch])
      branch worktreePath
    let calls := [SysCall.MkdirAll worktreeDir] ++
      createWorktree.ignoreCalls fp cw repoPath worktreeDir ++
      createWorktree.probes cw repoPath branch ++ [SysCall.git repoPath add]
    match cw.git repoPath add with
    | (output, some _) => (some (str "failed to create worktree: " ++ output), calls)
    | (_, none) => (none, calls)

/-! ## Reading the worktrees -/

/-- The loop over the lines of `git worktree list --porcelain` in
`getWorktrees`: `current` is the record being read, `worktrees` the records
appended so far. -/
def getWorktrees.parseLoop : List GoString → Worktree → List Worktree → Worktree × List Worktree
  | [], current, worktrees => (current, worktrees)
  | line :: rest, current, worktrees =>
    if strings.HasPrefix line (str "worktree ") then
      getWorktrees.parseLoop rest { Path := strings.TrimPrefix line (str "worktree ") }
        (if current.Path ≠ [] then worktrees ++ [current] else worktrees)
    else if strings.HasPrefix line (str "HEAD ") then
      getWorktrees.parseLoop rest
        { current with Head := strings.TrimPrefix line (str "HEAD ") } worktrees
    else if strings.HasPrefix line (str "branch ") then
      getWorktrees.parseLoop rest
        { current with
          Branch := strings.TrimPrefix (strings.TrimPrefix line (str "branch "))
            (str "refs/heads/") } worktrees
    else if line = [] ∧ current.Path ≠ [] then
      getWorktrees.parseLoop rest {} (worktrees ++ [current])
    else getWorktrees.parseLoop rest current worktrees

/-- The porcelain parser of `getWorktrees`: the records read from the output of
`git worktree list --porcelain`. -/
def getWorktrees.parse (output : GoString) : List Worktree :=
  let (current, worktrees) := getWorktrees.parseLoop (strings.Split output 10) {} []
  if current.Path ≠ [] then worktrees ++ [current] else worktrees

/-- The statement `// Get last commit info` of `getWorktrees` for one worktree,
given the output of `git log -1 --pretty=format:%H|%s|%ai|%an` (the command
having succeeded) and `parseTime`, which stands for
`time.Parse("2006-01-02 15:04:05 -0700", s)`; `none` is the panic of the slice
`parts[0][:7]`. -/
def getWorktrees.parseLog (parseTime : GoString → Option Time) (wt : Worktree)
    (output : GoString) : Option Worktree :=
  if output.length > 0 then
    -- byte 124 is "|"
    let parts := strings.Split output 124
    if parts.length ≥ 4 then
      match parts[0]?, parts[1]?, parts[2]?, parts[3]? with
      | some hash, some subject, some date, some author =>
        if hash.length < 7 then none
        else
          some { wt with
            LastCommit :=
              { Hash := hash.take 7
                Message := subject
                Date := match parseTime date with
                  | some t => t
                  | none => wt.LastCommit.Date
                Author := author } }
      | _, _, _, _ => none
    else some wt
  else some wt

/-! ## Specification vocabulary and scenarios -/

/-- The retention rule of the filter in the words of the specification: the
lower-cased term is a substring of the lower-cased branch name, of the
lower-cased subject of the last commit, or of the lower-cased path. -/
def matchesSearch (u : Unicode) (term : GoString) (wt : Worktree) : Prop :=
  strings.ToLower u term <:+: strings.ToLower u wt.Branch ∨
  strings.ToLower u term <:+: strings.ToLower u wt.LastCommit.Message ∨
  strings.ToLower u term <:+: strings.ToLower u wt.Path

instance (u : Unicode) (term : GoString) (wt : Worktree) : Decidable (matchesSearch u term wt) := by
  unfold matchesSearch; infer_instance

/-- Feeding a sequence of events to `Update`, each one with the answers of the
outside world at that moment; `none` when a step panics. -/
def model.run (u : Unicode) : model → List (World × Msg) → Option model
  | m, [] => some m
  | m, (w, msg) :: rest => (m.Update u w msg).bind (fun r => model.run u r.m rest)

/-- The key events `up`, `k`, `down` and `j`. -/
def isArrowKey (msg : Msg) : Prop :=
  msg = .KeyMsg (str "up") ∨ msg = .KeyMsg (str "k") ∨
  msg = .KeyMsg (str "down") ∨ msg = .KeyMsg (str "j")

instance (msg : Msg) : Decidable (isArrowKey msg) := by
  unfold isArrowKey; infer_instance

/-- The cursor bound of the specification. -/
def cursorInBounds (m : model) : Prop :=
  0 ≤ m.cursor ∧ m.cursor < max 1 (m.filtered.length : Int) ∧
  (m.filtered ≠ [] → m.cursor ≤ (m.filtered.length : Int) - 1)


/-- The worktree of the repository root in the scenarios of the specification. -/
def exampleMain : Worktree :=
  { Path := str "/repo", Branch := str "main", Head := str "1111111" }

/-- The second worktree of the scenarios: `feature/x`, dirty, last commit "fix bug". -/
def exampleFeature : Worktree :=
  { Path := str "/repo/.worktrees/feature-x", Branch := str "feature/x", Head := str "2222222",
    IsDirty := true, LastCommit := { Hash := str "2222222", Message := str "fix bug" } }

/-- An outside world at clock reading `now` in which every git operation
succeeds and the listing returns `listing`. -/
def exampleWorld (now : Time) (listing : List Worktree) : World :=
  { now := now
    deleteWorktree := fun _ _ => none
    createWorktree := fun _ _ _ => none
    getWorktrees := fun _ => .ok listing
    Chdir := fun _ => none
    SHELL := str "/bin/sh" }

/-- The world of the scenarios before anything is created or deleted. -/
def world0 : World := exampleWorld 0 [exampleMain, exampleFeature]

/-- The initial model of the scenarios: repository `/repo` with the two worktrees. -/
def exampleModel : model :=
  initialModel (.ok (str "/repo")) none (.ok [exampleMain, exampleFeature])

/-- A sequence of key presses, each answered by the world `w`. -/
def keys (w : World) (ks : List String) : List (World × Msg) :=
  ks.map (fun k => (w, Msg.KeyMsg (str k)))

/-- The models the session can be in: the results of `initialModel`, closed
under `Update` for every message and every answer of the outside world. -/
inductive Reachable (u : Unicode) : model → Prop
  | init (repo : Except GoString GoString) (loaded : Option Config)
      (listing : Except GoString (List Worktree)) : Reachable u (initialModel repo loaded listing)
  | step {m : model} (w : World) (msg : Msg) (r : Result) :
      Reachable u m → m.Update u w msg = some r → Reachable u r.m

/-- The mode invariant: the overlay flag is raised only in normal mode and the
mode `modeNewPath` is never entered. -/
def modeInv (m : model) : Prop :=
  (m.confirmDelete = true → m.inputMode = modeNormal) ∧ m.inputMode ≠ modeNewPath

/-- The four interaction states of the specification. -/
inductive UiState where
  | normal
  | search
  | createBranch
  | confirmDelete
  deriving DecidableEq, Repr

/-- The interaction states a model is in: the overlay is active when the flag
`confirmDelete` is raised, search and create-branch when `inputMode` says so,
normal when `inputMode` is `modeNormal` and the overlay is not active. -/
def inState (m : model) : UiState → Prop
  | .confirmDelete => m.confirmDelete = true
  | .normal => m.confirmDelete = false ∧ m.inputMode = modeNormal
  | .search => m.inputMode = modeSearch
  | .createBranch => m.inputMode = modeNewBranch

/-- The two events of `Update` that set a status message with a timeout of 3
seconds: `y`/`Y` on the overlay when the delete succeeds, and `enter` in
create-branch mode with a non-empty name when the create succeeds. -/
def setsTimedStatus (m : model) (w : World) (msg : Msg) : Prop :=
  (m.confirmDelete = true ∧ (msg = .KeyMsg (str "y") ∨ msg = .KeyMsg (str "Y")) ∧
    ∃ target, m.deleteTarget = some target ∧
      w.deleteWorktree m.repoPath target.Path = none) ∨
  (m.confirmDelete = false ∧ m.inputMode = modeNewBranch ∧ msg = .KeyMsg (str "enter") ∧
    m.inputValue ≠ [] ∧ w.createWorktree m.repoPath m.inputValue m.config = none)

/-- The scenario model with the cursor on `feature/x` and the overlay open for it. -/
def armedModel : model :=
  { exampleModel with cursor := 1, confirmDelete := true, deleteTarget := some exampleFeature }

/-- A clock reading of the present day: 63 900 000 000 seconds after Go's zero time. -/
def clockNow : Time := 63900000000 * Second

/-- The scenario model after `y` on the overlay at clock reading `clockNow`, the
delete succeeding and the listing returning the main worktree alone. -/
def deletedModel : model :=
  { exampleModel with
    worktrees := [exampleMain], filtered := [exampleMain], cursor := 1,
    statusMessage := str "Deleted worktree: feature/x",
    statusTimeout := clockNow + 3 * Second }

/-- The scenario model after typing `/featur`: search mode, one row left. -/
def searchingModel : model :=
  { exampleModel with
    inputMode := modeSearch, searchTerm := str "featur", filtered := [exampleFeature] }

/-- How one step may move the cursor: not at all, or by one row up or down
inside an unchanged filtered list. -/
def cursorStep (m m' : model) : Prop :=
  m'.cursor = m.cursor ∨
  (m'.filtered = m.filtered ∧
    ((0 < m.cursor ∧ m'.cursor = m.cursor - 1) ∨
     (m.cursor < (m.filtered.length : Int) - 1 ∧ m'.cursor = m.cursor + 1)))

/-- The scenario model after `down` and then `/main`: the cursor is on row 1
and one row is left. -/
def overshotModel : model :=
  { exampleModel with
    cursor := 1, inputMode := modeSearch, searchTerm := str "main", filtered := [exampleMain] }

/-- The scenario model after `/`, `f`, `enter`, `/`: search mode with an empty
term and the list still filtered by `f`. -/
def staleModel : model :=
  { exampleModel with inputMode := modeSearch, searchTerm := [], filtered := [exampleFeature] }

/-- The filtered list is the view of the full list under the search term. -/
def viewInv (u : Unicode) (m : model) : Prop :=
  m.filtered = filterWorktrees u m.worktrees m.searchTerm

/-- The model `model{err: e}` that `initialModel` returns when the repository
root or the first listing cannot be obtained. -/
def fatalModel (e : GoString) : model := { err := some e }

/-- The error screen of `View` for the error text `e`. -/
def errorFrame (e : GoString) : Frame :=
  .error (str "Error: " ++ e ++ str "\n\nPress q to quit.")

/-- The error of `getCurrentRepoPath`. -/
def notInRepo : GoString := str "not in a git repository"

/-- An outside world at clock reading `now` in which every git operation fails
with the error `e`. -/
def failingWorld (now : Time) (e : GoString) : World :=
  { now := now
    deleteWorktree := fun _ _ => some e
    createWorktree := fun _ _ _ => some e
    getWorktrees := fun _ => .error e
    Chdir := fun _ => some e
    SHELL := str "/bin/sh" }

/-- The scenario model after `d` on the main worktree: the error is recorded. -/
def erroredModel : model :=
  { exampleModel with err := some (str "cannot delete main worktree") }

/-- The scenario model in search mode with the term `é`, a single character of
two bytes. -/
def accentModel : model :=
  { exampleModel with inputMode := modeSearch, searchTerm := str "é", filtered := [] }

/-- The `path/filepath` functions on plain Unix paths that need no cleaning:
a path is absolute when it starts with `/`, joining puts a `/` between the
parts, and the relative path drops the base and the `/` after it. -/
def Filepath.plain : Filepath :=
  { IsAbs := fun p => strings.HasPrefix p (str "/")
    Join := fun a b => a ++ str "/" ++ b
    Rel := fun base target => target.drop (base.length + 1) }

/-- An outside world for `createWorktree` in which the directory can be made,
the ignore file can be updated and `git` answers every command with `answer`. -/
def exampleCreateWorld (answer : List GoString → GoString × Option GoString) : CreateWorld :=
  { MkdirAll := fun _ => none
    ensureGitignoreEntry := fun _ _ => none
    git := fun _ args => answer args }

/-- An answer of `git` for a branch that exists neither locally nor on the
remote: `rev-parse` fails, every other command succeeds with no output. -/
def answerNoBranch (args : List GoString) : GoString × Option GoString :=
  if args.head? = some (str "rev-parse") then ([], some (str "exit status 128")) else ([], none)

/-- One record of `git worktree list --porcelain`: the path, the head, the
branch when there is one, and whether a blank line follows the record. -/
structure PorcelainRecord where
  Path : GoString
  Head : GoString
  Branch : Option GoString
  blank : Bool
  deriving DecidableEq, Repr

/-- The lines that write a record: `worktree <Path>`, `HEAD <Head>`, the line
`branch refs/heads/<Branch>` when there is a branch, and the blank line when
one follows. -/
def PorcelainRecord.lines (r : PorcelainRecord) : List GoString :=
  [str "worktree " ++ r.Path, str "HEAD " ++ r.Head] ++
  (match r.Branch with
    | some b => [str "branch refs/heads/" ++ b]
    | none => []) ++
  (if r.blank then [[]] else [])

/-- The lines that write a list of records, one record after the other. -/
def porcelainLines : List PorcelainRecord → List GoString
  | [] => []
  | r :: rs => r.lines ++ porcelainLines rs

/-- The text of lines that each end in a newline. -/
def unlines : List GoString → GoString
  | [] => []
  | l :: ls => l ++ [10] ++ unlines ls

/-- The text of lines with a newline between them and none after the last. -/
def joinLines : List GoString → GoString
  | [] => []
  | [l] => l
  | l :: ls => l ++ [10] ++ joinLines ls

/-- The text that writes a list of records, with or without a newline after
the last line. -/
def porcelainText (rs : List PorcelainRecord) (finalNewline : Bool) : GoString :=
  if finalNewline then unlines (porcelainLines rs) else joinLines (porcelainLines rs)

/-- The worktree a record stands for: its path, head and branch (empty when
absent), every other field zero. -/
def PorcelainRecord.toWorktree (r : PorcelainRecord) : Worktree :=
  { Path := r.Path, Head := r.Head, Branch := r.Branch.getD [] }

/-- The records the parser is specified on: a non-empty path, and no newline
in the path, the head and the branch. -/
def PorcelainRecord.wellFormed (r : PorcelainRecord) : Prop :=
  r.Path ≠ [] ∧ 10 ∉ r.Path ∧ 10 ∉ r.Head ∧ ∀ b, r.Branch = some b → 10 ∉ b

/-- The last statement of the porcelain parser: the record being read is
appended when its path is not empty. -/
def getWorktrees.finish (p : Worktree × List Worktree) : List Worktree :=
  if p.1.Path ≠ [] then p.2 ++ [p.1] else p.2

/-- The two records of the scenarios as `git` prints them: `main` followed by
a blank line, `feature/x` directly followed by the end of the output. -/
def exampleRecords : List PorcelainRecord :=
  [{ Path := str "/repo", Head := str "1111111", Branch := some (str "main"), blank := true },
   { Path := str "/repo/.worktrees/feature-x", Head := str "2222222",
     Branch := some (str "feature/x"), blank := false }]

/-- The output of `git log -1 --pretty=format:%H|%s|%ai|%an` for a commit with
the given hash, subject, author date and author name. -/
def logLine (hash subject date author : GoString) : GoString :=
  hash ++ str "|" ++ subject ++ str "|" ++ date ++ str "|" ++ author

/-- The scenario model with the cursor on `feature/x` in a window of height 10. -/
def windowModel : model :=
  { exampleModel with cursor := 1, height := 10 }

/-- Six worktrees: the repository root and five more. -/
def sixWorktrees : List Worktree :=
  [exampleMain, exampleFeature,
   { Path := str "/repo/.worktrees/a", Branch := str "a", Head := str "3333333" },
   { Path := str "/repo/.worktrees/b", Branch := str "b", Head := str "4444444" },
   { Path := str "/repo/.worktrees/c", Branch := str "c", Head := str "5555555" },
   { Path := str "/repo/.worktrees/d", Branch := str "d", Head := str "6666666" }]

/-- The initial model of a repository with the six worktrees. -/
def sixModel : model :=
  initialModel (.ok (str "/repo")) none (.ok sixWorktrees)

/-- The model with the six worktrees after a window-size message of height
`minInt64` and five times `down`: the cursor is on the last row. -/
def tallModel : model :=
  { sixModel with width := 80, height := minInt64, cursor := 5 }

/-- The scenario model with the greatest scroll offset an `int` can hold. -/
def farScrollModel : model :=
  { exampleModel with scrollOffset := maxInt64 }

/-! ## Lemmas on strings and on the filter -/

theorem strings.Contains_iff_infix (s substr : GoString) :
    strings.Contains s substr = true ↔ substr <:+: s := by
  induction s with
  | nil => simp [strings.Contains, List.isEmpty_iff]
  | cons c s ih =>
    rw [strings.Contains, Bool.or_eq_true, ih, List.isPrefixOf_iff_prefix, List.infix_cons_iff]

theorem strings.ToLower_nil (u : Unicode) : strings.ToLower u [] = [] := by
  simp [strings.ToLower]

theorem filterWorktrees.loop_eq (u : Unicode) (search : GoString) (ws acc : List Worktree) :
    filterWorktrees.loop u search ws acc = acc ++ ws.filter (filterWorktrees.keep u search) := by
  induction ws generalizing acc with
  | nil => simp [filterWorktrees.loop]
  | cons wt rest ih =>
    by_cases h : filterWorktrees.keep u search wt = true
    · simp [filterWorktrees.loop, h, ih]
    · simp [filterWorktrees.loop, h, ih]

theorem filterWorktrees.keep_iff (u : Unicode) (term : GoString) (wt : Worktree) :
    filterWorktrees.keep u (strings.ToLower u term) wt = true ↔ matchesSearch u term wt := by
  simp [filterWorktrees.keep, matchesSearch, strings.Contains_iff_infix, or_assoc]

theorem filterWorktrees_nil (u : Unicode) (ws : List Worktree) :
    filterWorktrees u ws [] = ws := by
  simp [filterWorktrees]

theorem filterWorktrees_eq_filter (u : Unicode) (ws : List Worktree) (term : GoString) :
    filterWorktrees u ws term = ws.filter (fun wt => decide (matchesSearch u term wt)) := by
  by_cases h : term = []
  · subst h
    rw [filterWorktrees_nil]
    symm
    rw [List.filter_eq_self]
    intro wt _
    simp [matchesSearch, strings.ToLower_nil]
  · simp only [filterWorktrees, h, if_false, filterWorktrees.loop_eq, List.nil_append]
    apply List.filter_congr
    intro wt _
    rw [Bool.eq_iff_iff, filterWorktrees.keep_iff]
    simp

/-! ## C1: the filter -/

/-- C1. For every worktree list and every search term, `filterWorktrees` returns
the order-preserving sublist of exactly the worktrees whose lower-cased branch,
last-commit subject or path contains the lower-cased term: every returned
element matches, no matching element is left out, and the empty term returns
the list unchanged. -/
theorem filterWorktrees_spec (u : Unicode) (ws : List Worktree) (term : GoString) :
    filterWorktrees u ws term = ws.filter (fun wt => decide (matchesSearch u term wt)) ∧
    List.Sublist (filterWorktrees u ws term) ws ∧
    (∀ wt, wt ∈ filterWorktrees u ws term ↔ wt ∈ ws ∧ matchesSearch u term wt) ∧
    filterWorktrees u ws [] = ws := by
  refine ⟨filterWorktrees_eq_filter u ws term, ?_, ?_, filterWorktrees_nil u ws⟩
  · rw [filterWorktrees_eq_filter]
    exact List.filter_sublist ws
  · intro wt
    rw [filterWorktrees_eq_filter]
    simp [List.mem_filter]

/-! ## C2: cursor bounds under the arrow keys -/

theorem Update_key_normal (u : Unicode) (w : World) (m : model) (k : GoString)
    (hm : m.inputMode = modeNormal) (hc : m.confirmDelete = false) :
    m.Update u w (.KeyMsg k) = m.updateNormal u w k := by
  simp [model.Update, hm, hc]

theorem updateNormal_up (u : Unicode) (w : World) (m : model) (k : GoString)
    (hk : k = str "up" ∨ k = str "k") :
    m.updateNormal u w k = m.caseUp := by
  rcases hk with rfl | rfl <;> rfl

theorem updateNormal_down (u : Unicode) (w : World) (m : model) (k : GoString)
    (hk : k = str "down" ∨ k = str "j") :
    m.updateNormal u w k = m.caseDown := by
  rcases hk with rfl | rfl <;> rfl

theorem cursorInBounds_of (m : model) (h0 : 0 ≤ m.cursor)
    (h1 : m.cursor < max 1 (m.filtered.length : Int)) : cursorInBounds m := by
  refine ⟨h0, h1, ?_⟩
  intro hne
  have : 0 < m.filtered.length := List.length_pos.mpr hne
  omega

theorem arrow_step (u : Unicode) (w : World) (m : model) (msg : Msg)
    (hm : m.inputMode = modeNormal) (hc : m.confirmDelete = false)
    (hb : cursorInBounds m) (hk : isArrowKey msg) :
    ∃ r, m.Update u w msg = some r ∧ r.m.inputMode = modeNormal ∧
      r.m.confirmDelete = false ∧ cursorInBounds r.m := by
  obtain ⟨h0, h1, _⟩ := hb
  rcases hk with rfl | rfl | rfl | rfl
  · rw [Update_key_normal u w m _ hm hc, updateNormal_up u w m _ (Or.inl rfl), model.caseUp]
    split_ifs with h
    · exact ⟨_, rfl, hm, hc, cursorInBounds_of _ (by simp; omega) (by simp; omega)⟩
    · exact ⟨_, rfl, hm, hc, cursorInBounds_of _ h0 h1⟩
  · rw [Update_key_normal u w m _ hm hc, updateNormal_up u w m _ (Or.inr rfl), model.caseUp]
    split_ifs with h
    · exact ⟨_, rfl, hm, hc, cursorInBounds_of _ (by simp; omega) (by simp; omega)⟩
    · exact ⟨_, rfl, hm, hc, cursorInBounds_of _ h0 h1⟩
  · rw [Update_key_normal u w m _ hm hc, updateNormal_down u w m _ (Or.inl rfl), model.caseDown]
    split_ifs with h
    · exact ⟨_, rfl, hm, hc, cursorInBounds_of _ (by simp; omega) (by simp; omega)⟩
    · exact ⟨_, rfl, hm, hc, cursorInBounds_of _ h0 h1⟩
  · rw [Update_key_normal u w m _ hm hc, updateNormal_down u w m _ (Or.inr rfl), model.caseDown]
    split_ifs with h
    · exact ⟨_, rfl, hm, hc, cursorInBounds_of _ (by simp; omega) (by simp; omega)⟩
    · exact ⟨_, rfl, hm, hc, cursorInBounds_of _ h0 h1⟩

theorem arrow_run (u : Unicode) (es : List (World × Msg)) :
    ∀ m : model, m.inputMode = modeNormal → m.confirmDelete = false → cursorInBounds m →
      (∀ e ∈ es, isArrowKey e.2) →
      ∃ m', m.run u es = some m' ∧ cursorInBounds m' := by
  induction es with
  | nil => intro m _ _ hb _; exact ⟨m, rfl, hb⟩
  | cons e rest ih =>
    intro m hm hc hb hes
    obtain ⟨w, msg⟩ := e
    obtain ⟨r, hr, hm', hc', hb'⟩ :=
      arrow_step u w m msg hm hc hb (hes (w, msg) (List.mem_cons_self _ _))
    obtain ⟨m', hrun, hfin⟩ :=
      ih r.m hm' hc' hb' (fun e he => hes e (List.mem_cons_of_mem _ he))
    exact ⟨m', by simp [model.run, hr, hrun], hfin⟩

/-- C2. From a model in normal mode without the delete overlay whose cursor
satisfies `0 <= cursor < max(1, len(filtered))`, every finite sequence of
`up`/`k`/`down`/`j` keys is processed without a panic and leaves a cursor with
`0 <= cursor < max(1, len(filtered))`, and `cursor <= len(filtered)-1` when the
filtered list is non-empty; `up` at cursor 0 and `down` at the last row return
the model unchanged. -/
theorem cursor_bounds_up_down (u : Unicode) (m : model) (es : List (World × Msg))
    (hm : m.inputMode = modeNormal) (hc : m.confirmDelete = false)
    (h0 : 0 ≤ m.cursor) (h1 : m.cursor < max 1 (m.filtered.length : Int))
    (hes : ∀ e ∈ es, isArrowKey e.2) :
    (∃ m', m.run u es = some m' ∧ 0 ≤ m'.cursor ∧
      m'.cursor < max 1 (m'.filtered.length : Int) ∧
      (m'.filtered ≠ [] → m'.cursor ≤ (m'.filtered.length : Int) - 1)) ∧
    (∀ w k, (k = str "up" ∨ k = str "k") → m.cursor = 0 →
      m.Update u w (.KeyMsg k) = some ⟨m, .nil, []⟩) ∧
    (∀ w k, (k = str "down" ∨ k = str "j") → m.cursor = (m.filtered.length : Int) - 1 →
      m.Update u w (.KeyMsg k) = some ⟨m, .nil, []⟩) := by
  refine ⟨arrow_run u es m hm hc (cursorInBounds_of m h0 h1) hes, ?_, ?_⟩
  · intro w k hk hcur
    rw [Update_key_normal u w m k hm hc, updateNormal_up u w m k hk, model.caseUp, if_neg (by omega)]
  · intro w k hk hcur
    rw [Update_key_normal u w m k hm hc, updateNormal_down u w m k hk, model.caseDown,
      if_neg (by omega)]


theorem cursor_bounds_up_down_witness :
    (∃ m', exampleModel.run Unicode.ascii
        (keys world0 ["down", "j", "up", "k", "k"]) = some m' ∧ 0 ≤ m'.cursor ∧
      m'.cursor < max 1 (m'.filtered.length : Int) ∧
      (m'.filtered ≠ [] → m'.cursor ≤ (m'.filtered.length : Int) - 1)) ∧
    (∀ w k, (k = str "up" ∨ k = str "k") → exampleModel.cursor = 0 →
      exampleModel.Update Unicode.ascii w (.KeyMsg k) = some ⟨exampleModel, .nil, []⟩) ∧
    (∀ w k, (k = str "down" ∨ k = str "j") →
      exampleModel.cursor = (exampleModel.filtered.length : Int) - 1 →
      exampleModel.Update Unicode.ascii w (.KeyMsg k) = some ⟨exampleModel, .nil, []⟩) :=
  cursor_bounds_up_down Unicode.ascii exampleModel
    (keys world0 ["down", "j", "up", "k", "k"]) rfl rfl (by decide) (by decide)
    (by decide)

/-! ## The state machine: case analysis and single keys -/

theorem updateNormal_cases (u : Unicode) (w : World) (m : model) (k : GoString)
    (P : Option Result → Prop) (hq : P m.caseQuit) (hup : P m.caseUp) (hdown : P m.caseDown)
    (hslash : P m.caseSlash) (hnew : P m.caseNew) (hdel : P m.caseDelete)
    (hrefresh : P (m.caseRefresh u w)) (henter : P (m.caseEnter w))
    (hnone : P (some ⟨m, .nil, []⟩)) : P (m.updateNormal u w k) := by
  unfold model.updateNormal
  split_ifs <;> assumption

theorem Update_cases (u : Unicode) (w : World) (m : model) (msg : Msg)
    (P : Option Result → Prop)
    (hsize : ∀ a b, P (some ⟨{ m with width := a, height := b }, .nil, []⟩))
    (hclear : P (some ⟨{ m with statusMessage := [], statusTimeout := 0 }, .tickCmd, []⟩))
    (htick : P (some ⟨m, .tickCmd, []⟩))
    (hconfirm : ∀ k, m.confirmDelete = true → P (m.updateConfirmDelete u w k))
    (hsearch : ∀ k, m.confirmDelete = false → m.inputMode = modeSearch → P (m.updateSearch u k))
    (hbranch : ∀ k, m.confirmDelete = false → m.inputMode = modeNewBranch →
      P (m.updateNewBranch u w k))
    (hnormal : ∀ k, m.confirmDelete = false → m.inputMode ≠ modeSearch →
      m.inputMode ≠ modeNewBranch → P (m.updateNormal u w k))
    (hother : P (some ⟨m, .nil, []⟩)) : P (m.Update u w msg) := by
  cases msg with
  | WindowSizeMsg a b => exact hsize a b
  | tickMsg t =>
    simp only [model.Update]
    split_ifs
    · exact hclear
    · exact htick
  | other => exact hother
  | KeyMsg k =>
    simp only [model.Update]
    split_ifs with hc
    · exact hconfirm k hc
    · simp only [Bool.not_eq_true] at hc
      split
      · next h => exact hsearch k hc h
      · next h => exact hbranch k hc h
      · next h1 h2 => exact hnormal k hc h1 h2

theorem Update_key_confirm (u : Unicode) (w : World) (m : model) (k : GoString)
    (hc : m.confirmDelete = true) :
    m.Update u w (.KeyMsg k) = m.updateConfirmDelete u w k := by
  simp [model.Update, hc]

theorem Update_key_search (u : Unicode) (w : World) (m : model) (k : GoString)
    (hm : m.inputMode = modeSearch) (hc : m.confirmDelete = false) :
    m.Update u w (.KeyMsg k) = m.updateSearch u k := by
  simp [model.Update, hm, hc]

theorem Update_key_newBranch (u : Unicode) (w : World) (m : model) (k : GoString)
    (hm : m.inputMode = modeNewBranch) (hc : m.confirmDelete = false) :
    m.Update u w (.KeyMsg k) = m.updateNewBranch u w k := by
  simp [model.Update, hm, hc]

theorem index_eq_some {α : Type} (s : List α) (i : Int) (a : α) (h : index s i = some a) :
    0 ≤ i ∧ i < (s.length : Int) := by
  unfold index at h
  split_ifs at h with h0
  refine ⟨h0, ?_⟩
  have := (List.getElem?_eq_some.mp h).1
  omega

theorem reachable_run (u : Unicode) (es : List (World × Msg)) :
    ∀ m m' : model, Reachable u m → m.run u es = some m' → Reachable u m' := by
  induction es with
  | nil =>
    intro m m' hm h
    simp only [model.run, Option.some.injEq] at h
    exact h ▸ hm
  | cons e rest ih =>
    intro m m' hm h
    obtain ⟨w, msg⟩ := e
    simp only [model.run] at h
    cases hr : m.Update u w msg with
    | none => simp [hr] at h
    | some r =>
      rw [hr] at h
      exact ih r.m m' (Reachable.step w msg r hm hr) h

/-! ## C3: the guard of the main worktree -/

theorem updateConfirmDelete_target (u : Unicode) (w : World) (m : model) (k : GoString)
    (hinv : m.confirmDelete = false → m.deleteTarget = none) :
    ∀ r, m.updateConfirmDelete u w k = some r →
      (r.m.confirmDelete = false → r.m.deleteTarget = none) := by
  intro r h
  unfold model.updateConfirmDelete at h
  split_ifs at h
  · split at h
    · split at h
      · cases h; intro _; rfl
      · cases h; intro _; rfl
    · cases h; intro _; rfl
  · cases h; intro _; rfl
  · cases h; exact hinv

theorem updateSearch_target (u : Unicode) (m : model) (k : GoString) :
    ∀ r, m.updateSearch u k = some r →
      r.m.confirmDelete = m.confirmDelete ∧ r.m.deleteTarget = m.deleteTarget := by
  intro r h
  unfold model.updateSearch at h
  split_ifs at h <;> (cases h; exact ⟨rfl, rfl⟩)

theorem updateNewBranch_target (u : Unicode) (w : World) (m : model) (k : GoString) :
    ∀ r, m.updateNewBranch u w k = some r →
      r.m.confirmDelete = m.confirmDelete ∧ r.m.deleteTarget = m.deleteTarget := by
  intro r h
  unfold model.updateNewBranch at h
  split_ifs at h
  · cases h; exact ⟨rfl, rfl⟩
  · split at h
    · cases h; exact ⟨rfl, rfl⟩
    · cases h; constructor <;> (dsimp only; split <;> rfl)
  all_goals (cases h; exact ⟨rfl, rfl⟩)

theorem updateNormal_target (u : Unicode) (w : World) (m : model) (k : GoString)
    (hinv : m.confirmDelete = false → m.deleteTarget = none) :
    ∀ r, m.updateNormal u w k = some r →
      (r.m.confirmDelete = false → r.m.deleteTarget = none) := by
  apply updateNormal_cases u w m k
    (fun o => ∀ r, o = some r → (r.m.confirmDelete = false → r.m.deleteTarget = none))
  · intro r h; cases h; exact hinv
  · intro r h; unfold model.caseUp at h
    split_ifs at h <;> (cases h; exact hinv)
  · intro r h; unfold model.caseDown at h
    split_ifs at h <;> (cases h; exact hinv)
  · intro r h; cases h; exact hinv
  · intro r h; cases h; exact hinv
  · intro r h; unfold model.caseDelete at h
    split_ifs at h
    · split at h
      · cases h
      · split_ifs at h
        · cases h; exact hinv
        · cases h; intro hc; cases hc
    · cases h; exact hinv
  · intro r h; unfold model.caseRefresh at h
    split at h <;> (cases h; exact hinv)
  · intro r h; unfold model.caseEnter at h
    split_ifs at h
    · split at h
      · cases h
      · dsimp only at h
        split at h <;> (cases h; exact hinv)
    · cases h; exact hinv
  · intro r h; cases h; exact hinv

theorem Update_target (u : Unicode) (w : World) (m : model) (msg : Msg)
    (hinv : m.confirmDelete = false → m.deleteTarget = none) :
    ∀ r, m.Update u w msg = some r →
      (r.m.confirmDelete = false → r.m.deleteTarget = none) := by
  apply Update_cases u w m msg
    (fun o => ∀ r, o = some r → (r.m.confirmDelete = false → r.m.deleteTarget = none))
  · intro a b r h; cases h; exact hinv
  · intro r h; cases h; exact hinv
  · intro r h; cases h; exact hinv
  · intro k _; exact updateConfirmDelete_target u w m k hinv
  · intro k _ _ r h
    obtain ⟨h1, h2⟩ := updateSearch_target u m k r h
    rw [h1, h2]; exact hinv
  · intro k _ _ r h
    obtain ⟨h1, h2⟩ := updateNewBranch_target u w m k r h
    rw [h1, h2]; exact hinv
  · intro k _ _ _; exact updateNormal_target u w m k hinv
  · intro r h; cases h; exact hinv

theorem target_initialModel (repo : Except GoString GoString) (loaded : Option Config)
    (listing : Except GoString (List Worktree)) :
    (initialModel repo loaded listing).deleteTarget = none := by
  unfold initialModel
  split
  · rfl
  · split <;> rfl

/-- In every model the session reaches, `deleteTarget` is nil while the overlay
flag `confirmDelete` is down: the two fields are set together by `d` and
cleared together by every key that closes the overlay. -/
theorem target_of_reachable (u : Unicode) (m : model) (h : Reachable u m) :
    m.confirmDelete = false → m.deleteTarget = none := by
  induction h with
  | init repo loaded listing => intro _; exact target_initialModel repo loaded listing
  | step w msg r _ hstep ih => exact Update_target u w _ msg ih r hstep

/-- The guard of `d` on any model, reached or not: with the cursor on an entry
whose path equals the repository root, only `err` is written. -/
theorem Update_d_main (u : Unicode) (w : World) (m : model) (wt : Worktree)
    (hm : m.inputMode = modeNormal) (hc : m.confirmDelete = false)
    (hidx : index m.filtered m.cursor = some wt) (hp : wt.Path = m.repoPath) :
    m.Update u w (.KeyMsg (str "d")) =
      some ⟨{ m with err := some (str "cannot delete main worktree") }, .nil, []⟩ := by
  have hlt := (index_eq_some _ _ _ hidx).2
  have hsuf : strings.HasSuffix m.repoPath wt.Path = true := by
    simp [strings.HasSuffix, hp]
  rw [Update_key_normal u w m _ hm hc]
  show m.caseDelete = _
  simp [model.caseDelete, hlt, hidx, hsuf]

/-- C3. In every model the session reaches that is in normal mode without the
delete overlay, with the cursor on an entry of the filtered list whose path
equals the repository root, the key `d` makes no outside call (no delete
operation) and returns the model with only `err` changed, to "cannot delete
main worktree": `confirmDelete` is false, `deleteTarget` is nil and both lists
are unchanged. -/
theorem delete_main_guard (u : Unicode) (w : World) (m : model) (wt : Worktree)
    (hreach : Reachable u m)
    (hm : m.inputMode = modeNormal) (hc : m.confirmDelete = false)
    (hidx : index m.filtered m.cursor = some wt) (hp : wt.Path = m.repoPath) :
    ∃ r, m.Update u w (.KeyMsg (str "d")) = some r ∧
      r.m = { m with err := some (str "cannot delete main worktree") } ∧
      r.m.confirmDelete = false ∧ r.m.deleteTarget = none ∧
      r.m.err = some (str "cannot delete main worktree") ∧
      r.calls = [] ∧ r.cmd = .nil ∧
      r.m.worktrees = m.worktrees ∧ r.m.filtered = m.filtered :=
  ⟨_, Update_d_main u w m wt hm hc hidx hp, rfl, hc, target_of_reachable u m hreach hc,
    rfl, rfl, rfl, rfl, rfl⟩

theorem delete_main_guard_witness :
    ∃ r, exampleModel.Update Unicode.ascii world0 (.KeyMsg (str "d")) = some r ∧
      r.m = { exampleModel with err := some (str "cannot delete main worktree") } ∧
      r.m.confirmDelete = false ∧ r.m.deleteTarget = none ∧
      r.m.err = some (str "cannot delete main worktree") ∧
      r.calls = [] ∧ r.cmd = .nil ∧
      r.m.worktrees = exampleModel.worktrees ∧ r.m.filtered = exampleModel.filtered :=
  delete_main_guard Unicode.ascii world0 exampleModel exampleMain (Reachable.init _ _ _)
    rfl rfl (by decide) (by decide)

/-! ## C4: mode exclusivity -/

theorem updateConfirmDelete_modeInv (u : Unicode) (w : World) (m : model) (k : GoString)
    (hinv : modeInv m) : ∀ r, m.updateConfirmDelete u w k = some r → modeInv r.m := by
  intro r h
  obtain ⟨h1, h2⟩ := hinv
  unfold model.updateConfirmDelete at h
  split_ifs at h
  · split at h
    · split at h
      · cases h; exact ⟨by simp, h2⟩
      · cases h; constructor
        · simp
        · dsimp only; split <;> exact h2
    · cases h; exact ⟨by simp, h2⟩
  · cases h; exact ⟨by simp, h2⟩
  · cases h; exact ⟨h1, h2⟩

theorem updateSearch_modeInv (u : Unicode) (m : model) (k : GoString)
    (hc : m.confirmDelete = false) (hm : m.inputMode = modeSearch) :
    ∀ r, m.updateSearch u k = some r → modeInv r.m := by
  intro r h
  unfold model.updateSearch at h
  split_ifs at h <;> (cases h; simp [modeInv, hc, hm])

theorem updateNewBranch_modeInv (u : Unicode) (w : World) (m : model) (k : GoString)
    (hc : m.confirmDelete = false) (hm : m.inputMode = modeNewBranch) :
    ∀ r, m.updateNewBranch u w k = some r → modeInv r.m := by
  intro r h
  unfold model.updateNewBranch at h
  split_ifs at h
  · cases h; simp [modeInv, hc]
  · split at h
    · cases h; simp [modeInv, hc]
    · cases h; constructor
      · dsimp only; split <;> simp [hc]
      · simp
  all_goals (cases h; simp [modeInv, hc, hm])

theorem updateNormal_modeInv (u : Unicode) (w : World) (m : model) (k : GoString)
    (hc : m.confirmDelete = false) (hm : m.inputMode = modeNormal) :
    ∀ r, m.updateNormal u w k = some r → modeInv r.m := by
  apply updateNormal_cases u w m k (fun o => ∀ r, o = some r → modeInv r.m)
  · intro r h; cases h; simp [modeInv, hc, hm]
  · intro r h; unfold model.caseUp at h
    split_ifs at h <;> (cases h; simp [modeInv, hc, hm])
  · intro r h; unfold model.caseDown at h
    split_ifs at h <;> (cases h; simp [modeInv, hc, hm])
  · intro r h; cases h; simp [modeInv, hc]
  · intro r h; cases h; simp [modeInv, hc]
  · intro r h; unfold model.caseDelete at h
    split_ifs at h
    · split at h
      · cases h
      · split_ifs at h <;> (cases h; simp [modeInv, hc, hm])
    · cases h; simp [modeInv, hc, hm]
  · intro r h; unfold model.caseRefresh at h
    split at h <;> (cases h; simp [modeInv, hc, hm])
  · intro r h; unfold model.caseEnter at h
    split_ifs at h
    · split at h
      · cases h
      · dsimp only at h
        split at h <;> (cases h; simp [modeInv, hc, hm])
    · cases h; simp [modeInv, hc, hm]
  · intro r h; cases h; simp [modeInv, hc, hm]

theorem modeInv_step (u : Unicode) (w : World) (m : model) (msg : Msg)
    (hinv : modeInv m) : ∀ r, m.Update u w msg = some r → modeInv r.m := by
  apply Update_cases u w m msg (fun o => ∀ r, o = some r → modeInv r.m)
  · intro a b r h; cases h; exact hinv
  · intro r h; cases h; exact hinv
  · intro r h; cases h; exact hinv
  · intro k _; exact updateConfirmDelete_modeInv u w m k hinv
  · intro k hc hm; exact updateSearch_modeInv u m k hc hm
  · intro k hc hm; exact updateNewBranch_modeInv u w m k hc hm
  · intro k hc h1 h2
    have hm : m.inputMode = modeNormal := by
      have h3 := hinv.2
      cases hmode : m.inputMode <;> simp_all
    exact updateNormal_modeInv u w m k hc hm
  · intro r h; cases h; exact hinv

theorem modeInv_initialModel (repo : Except GoString GoString) (loaded : Option Config)
    (listing : Except GoString (List Worktree)) : modeInv (initialModel repo loaded listing) := by
  unfold initialModel
  split
  · simp [modeInv]
  · split <;> simp [modeInv]

theorem modeInv_of_reachable (u : Unicode) (m : model) (h : Reachable u m) : modeInv m := by
  induction h with
  | init repo loaded listing => exact modeInv_initialModel repo loaded listing
  | step w msg r _ hstep ih => exact modeInv_step u w _ msg ih r hstep

/-- C4. In every model reachable from the initial model by key, tick,
window-size (and any other) messages, whatever the outside world answers, the
overlay flag `confirmDelete` is raised only while `inputMode` is `modeNormal`,
`inputMode` is never `modeNewPath`, and the model is in exactly one of the four
interaction states normal, search, create-branch and confirm-delete overlay. -/
theorem mode_exclusivity (u : Unicode) (m : model) (h : Reachable u m) :
    (m.confirmDelete = true → m.inputMode = modeNormal) ∧
    (m.confirmDelete = true → m.inputMode ≠ modeSearch ∧ m.inputMode ≠ modeNewBranch) ∧
    m.inputMode ≠ modeNewPath ∧
    ∃! s, inState m s := by
  obtain ⟨h1, h2⟩ := modeInv_of_reachable u m h
  refine ⟨h1, fun hc => by simp [h1 hc], h2, ?_⟩
  cases hc : m.confirmDelete
  · cases hm : m.inputMode
    · refine ⟨.normal, ⟨hc, hm⟩, ?_⟩
      intro s hs
      cases s <;> simp_all [inState]
    · refine ⟨.search, hm, ?_⟩
      intro s hs
      cases s <;> simp_all [inState]
    · refine ⟨.createBranch, hm, ?_⟩
      intro s hs
      cases s <;> simp_all [inState]
    · exact absurd hm h2
  · have hm := h1 hc
    refine ⟨.confirmDelete, hc, ?_⟩
    intro s hs
    cases s <;> simp_all [inState]

theorem mode_exclusivity_witness :
    (armedModel.confirmDelete = true → armedModel.inputMode = modeNormal) ∧
    (armedModel.confirmDelete = true →
      armedModel.inputMode ≠ modeSearch ∧ armedModel.inputMode ≠ modeNewBranch) ∧
    armedModel.inputMode ≠ modeNewPath ∧
    ∃! s, inState armedModel s :=
  mode_exclusivity Unicode.ascii armedModel
    (reachable_run Unicode.ascii (keys world0 ["down", "d"]) exampleModel armedModel
      (Reachable.init _ _ _) (by decide))

/-! ## C5: expiry of the status message -/

theorem tick_clears (u : Unicode) (w : World) (m : model) (t : Time)
    (hnz : m.statusTimeout ≠ 0) (hafter : w.now > m.statusTimeout) :
    m.Update u w (.tickMsg t) =
      some ⟨{ m with statusMessage := [], statusTimeout := 0 }, .tickCmd, []⟩ := by
  simp [model.Update, hnz, hafter]

theorem tick_keeps (u : Unicode) (w : World) (m : model) (t : Time)
    (hnot : ¬ w.now > m.statusTimeout) :
    m.Update u w (.tickMsg t) = some ⟨m, .tickCmd, []⟩ := by
  simp [model.Update, hnot]

theorem str_append_ne_nil (s : String) (t : GoString) (h : str s ≠ []) : str s ++ t ≠ [] := by
  intro h'
  exact h (List.append_eq_nil.mp h').1

theorem setsTimedStatus_sets (u : Unicode) (w : World) (m : model) (msg : Msg)
    (hset : setsTimedStatus m w msg) :
    ∃ r, m.Update u w msg = some r ∧ r.m.statusMessage ≠ [] ∧
      r.m.statusTimeout = w.now + 3 * Second := by
  rcases hset with ⟨hc, hk, target, ht, hd⟩ | ⟨hc, hm, hk, hv, hcr⟩
  · have hupd : ∀ k, (k = str "y" ∨ k = str "Y") →
        ∃ r, m.updateConfirmDelete u w k = some r ∧ r.m.statusMessage ≠ [] ∧
          r.m.statusTimeout = w.now + 3 * Second := by
      intro k hk
      unfold model.updateConfirmDelete
      rw [if_pos hk]
      simp only [ht, hd]
      refine ⟨_, rfl, ?_, ?_⟩
      · dsimp only
        split <;> exact str_append_ne_nil _ _ (by decide)
      · dsimp only
        split <;> rfl
    rcases hk with rfl | rfl
    · rw [Update_key_confirm u w m _ hc]; exact hupd _ (Or.inl rfl)
    · rw [Update_key_confirm u w m _ hc]; exact hupd _ (Or.inr rfl)
  · subst hk
    rw [Update_key_newBranch u w m _ hm hc]
    unfold model.updateNewBranch
    rw [if_neg (by decide), if_pos rfl, if_pos hv]
    simp only [hcr]
    refine ⟨_, rfl, ?_, ?_⟩
    · dsimp only
      split <;> exact str_append_ne_nil _ _ (by decide)
    · dsimp only
      split <;> rfl

/-- C5 (as amended). With the clock an explicit input: an event that sets a
status message with the 3-second timeout at clock reading `t0` (the deadline
`t0 + 3s` not being Go's zero time) returns a model with a non-empty
`statusMessage` and `statusTimeout = t0 + 3s`; and for every model with that
`statusTimeout`, every tick delivered at a time `now` with `now - t0 > 3s`
returns the model with `statusMessage = ""` and a zero `statusTimeout`, and
reschedules the tick; no key is involved. -/
theorem status_message_expiry (u : Unicode) (w : World) (m : model) (msg : Msg) (t0 : Time)
    (hset : setsTimedStatus m w msg) (hnow : w.now = t0) (hnz : t0 + 3 * Second ≠ 0) :
    ∃ r, m.Update u w msg = some r ∧ r.m.statusMessage ≠ [] ∧
      r.m.statusTimeout = t0 + 3 * Second ∧
      ∀ (m' : model) (w' : World) (t : Time),
        m'.statusTimeout = t0 + 3 * Second → w'.now - t0 > 3 * Second →
        m'.Update u w' (.tickMsg t) =
          some ⟨{ m' with statusMessage := [], statusTimeout := 0 }, .tickCmd, []⟩ := by
  obtain ⟨r, hr, hmsg, hto⟩ := setsTimedStatus_sets u w m msg hset
  refine ⟨r, hr, hmsg, hnow ▸ hto, ?_⟩
  intro m' w' t hto' hlate
  apply tick_clears
  · rw [hto']; exact hnz
  · rw [hto']
    have h3 : w'.now > t0 + 3 * Second := by linarith
    exact h3

theorem status_message_expiry_witness :
    ∃ r, armedModel.Update Unicode.ascii (exampleWorld clockNow [exampleMain])
        (.KeyMsg (str "y")) = some r ∧
      r.m.statusMessage ≠ [] ∧ r.m.statusTimeout = clockNow + 3 * Second ∧
      ∀ (m' : model) (w' : World) (t : Time),
        m'.statusTimeout = clockNow + 3 * Second → w'.now - clockNow > 3 * Second →
        m'.Update Unicode.ascii w' (.tickMsg t) =
          some ⟨{ m' with statusMessage := [], statusTimeout := 0 }, .tickCmd, []⟩ :=
  status_message_expiry Unicode.ascii (exampleWorld clockNow [exampleMain]) armedModel
    (.KeyMsg (str "y")) clockNow
    (Or.inl ⟨rfl, Or.inl rfl, exampleFeature, rfl, rfl⟩) rfl (by decide)

/-- C5, counterexample. The overlay key `y` at clock reading `clockNow` sets
the message "Deleted worktree: feature/x" with `statusTimeout = clockNow + 3s`;
a tick delivered at `now = clockNow + 3s`, so that `now - t0 >= 3s`, returns the
model unchanged: the message is still there. -/
theorem status_message_kept_at_deadline :
    (∀ u : Unicode,
      (armedModel.Update u (exampleWorld clockNow [exampleMain]) (.KeyMsg (str "y"))).map
        (fun r => r.m) = some deletedModel) ∧
    deletedModel.statusTimeout = clockNow + 3 * Second ∧
    (clockNow + 3 * Second) - clockNow ≥ 3 * Second ∧
    (∀ (u : Unicode) (t : Time),
      deletedModel.Update u (exampleWorld (clockNow + 3 * Second) [exampleMain]) (.tickMsg t) =
        some ⟨deletedModel, .tickCmd, []⟩) ∧
    deletedModel.statusMessage = str "Deleted worktree: feature/x" ∧
    deletedModel.statusMessage ≠ [] := by
  refine ⟨fun u => rfl, by decide, by decide, fun u t => ?_, by decide, by decide⟩
  exact tick_keeps u _ _ t (by decide)

/-! ## C6: running `ensureGitignoreEntry` twice -/

theorem strings.splitLoop_append_sep (sep : UInt8) (t : GoString) :
    ∀ (s cur : GoString), strings.splitLoop sep (s ++ sep :: t) cur =
      strings.splitLoop sep s cur ++ strings.splitLoop sep t [] := by
  intro s
  induction s with
  | nil => intro cur; simp [strings.splitLoop]
  | cons c s ih =>
    intro cur
    by_cases h : c = sep
    · simp [strings.splitLoop, h, ih]
    · simp [strings.splitLoop, h, ih]

theorem strings.splitLoop_no_sep (sep : UInt8) :
    ∀ (e cur : GoString), sep ∉ e → strings.splitLoop sep e cur = [cur ++ e] := by
  intro e
  induction e with
  | nil => intro cur _; simp [strings.splitLoop]
  | cons c e ih =>
    intro cur h
    have hc : c ≠ sep := fun hc => h (by simp [hc])
    have he : sep ∉ e := fun he => h (by simp [he])
    simp [strings.splitLoop, hc, ih _ he]

/-- A line without newline that is written after a line break, and followed by
one, is one of the lines `strings.Split` returns. -/
theorem strings.mem_Split_of_line (x e : GoString) (he : 10 ∉ e)
    (hx : x = [] ∨ ∃ y, x = y ++ [10]) : e ∈ strings.Split (x ++ e ++ [10]) 10 := by
  have hlast : strings.splitLoop 10 (e ++ [10]) [] = [e, []] := by
    have := strings.splitLoop_append_sep 10 [] e []
    simp only [List.nil_append] at this
    rw [this, strings.splitLoop_no_sep 10 e [] he]
    simp [strings.splitLoop]
  rcases hx with rfl | ⟨y, rfl⟩
  · simp [strings.Split, hlast]
  · have : y ++ [10] ++ e ++ [10] = y ++ 10 :: (e ++ [10]) := by simp
    rw [strings.Split, this, strings.splitLoop_append_sep, hlast]
    simp

theorem strings.HasSuffix_newline (c : GoString) (h : strings.HasSuffix c (str "\n") = true) :
    ∃ y, c = y ++ [10] := by
  have h' : [10] <:+ c := by
    have : str "\n" = [10] := by decide
    rw [strings.HasSuffix, this] at h
    simpa using h
  obtain ⟨y, hy⟩ := h'
  exact ⟨y, hy.symm⟩

theorem ensureGitignoreEntry.body_written (u : Unicode) (content entry c' : GoString)
    (h : ensureGitignoreEntry.body u content entry = some c') :
    ∃ x, (x = [] ∨ ∃ y, x = y ++ [10]) ∧ c' = x ++ entry ++ [10] := by
  have hc1 : str "\n# Git worktrees\n" = str "\n# Git worktrees" ++ [10] := by decide
  have hc2 : str "# Git worktrees\n" = str "# Git worktrees" ++ [10] := by decide
  have hnl : str "\n" = [10] := by decide
  unfold ensureGitignoreEntry.body at h
  simp only [] at h
  split_ifs at h with hany h1 h2 h3 h4
  all_goals simp only [Option.some.injEq] at h
  all_goals subst h
  · exact ⟨content ++ str "\n" ++ str "\n# Git worktrees\n",
      Or.inr ⟨content ++ str "\n" ++ str "\n# Git worktrees", by rw [hc1]; simp⟩, by rw [hnl]⟩
  · exact ⟨content ++ str "\n# Git worktrees\n",
      Or.inr ⟨content ++ str "\n# Git worktrees", by rw [hc1]; simp⟩, by rw [hnl]⟩
  · exact ⟨str "# Git worktrees\n", Or.inr ⟨str "# Git worktrees", hc2⟩, by rw [hnl]⟩
  · exact ⟨content ++ str "\n", Or.inr ⟨content, by rw [hnl]⟩, by rw [hnl]⟩
  · have hsuf : strings.HasSuffix content (str "\n") = true := by
      by_contra hs
      have hlen : content.length > 0 := by omega
      exact h4 ⟨hlen, by simpa using hs⟩
    exact ⟨content, Or.inr (strings.HasSuffix_newline content hsuf), by rw [hnl]⟩

/-- Idempotence on trimmed entries: when the entry made to end in `/` holds no
newline and is left unchanged by `strings.TrimSpace`, a second run of
`ensureGitignoreEntry` leaves the content of the first run as it is. -/
theorem ensureGitignoreEntry_idempotent_of_trimmed (u : Unicode) (content entry : GoString)
    (hnl : 10 ∉ ensureGitignoreEntry.normalize entry)
    (htrim : strings.TrimSpace u (ensureGitignoreEntry.normalize entry) =
      ensureGitignoreEntry.normalize entry) :
    gitignoreAfter u (gitignoreAfter u content entry) entry = gitignoreAfter u content entry := by
  cases h : ensureGitignoreEntry u content entry with
  | none => simp [gitignoreAfter, h]
  | some c' =>
    have hc : gitignoreAfter u content entry = c' := by simp [gitignoreAfter, h]
    rw [hc]
    obtain ⟨x, hx, rfl⟩ := ensureGitignoreEntry.body_written u content _ c' h
    have hmem := strings.mem_Split_of_line x _ hnl hx
    have hnone : ensureGitignoreEntry u (x ++ ensureGitignoreEntry.normalize entry ++ [10]) entry
        = none := by
      unfold ensureGitignoreEntry ensureGitignoreEntry.body
      simp only []
      rw [if_pos]
      rw [List.any_eq_true]
      exact ⟨_, hmem, by simp [htrim]⟩
    rw [gitignoreAfter, hnone]
    rfl

/-- C6, the failing input. For the entry `" wt"` (a directory name that starts
with a space) and an empty ignore file, the first run writes
`"# Git worktrees\n wt/\n"` and the second run, on that content, appends the
entry once more: the file is not the same after the second run. -/
theorem ensureGitignoreEntry_appends_again :
    (∀ u : Unicode, gitignoreAfter u [] (str " wt") = str "# Git worktrees\n wt/\n") ∧
    (∀ u : Unicode, gitignoreAfter u (gitignoreAfter u [] (str " wt")) (str " wt") =
      str "# Git worktrees\n wt/\n wt/\n") ∧
    (∀ u : Unicode, gitignoreAfter u (gitignoreAfter u [] (str " wt")) (str " wt") ≠
      gitignoreAfter u [] (str " wt")) := by
  have h1 : ∀ u : Unicode, gitignoreAfter u [] (str " wt") = str "# Git worktrees\n wt/\n" :=
    fun u => rfl
  have h2 : ∀ u : Unicode, gitignoreAfter u (str "# Git worktrees\n wt/\n") (str " wt") =
      str "# Git worktrees\n wt/\n wt/\n" := fun u => rfl
  refine ⟨h1, fun u => by rw [h1 u, h2 u], fun u => ?_⟩
  rw [h1 u, h2 u]
  decide

/-! ## C7: leaving search mode with `esc` -/

/-- C7. In search mode without the delete overlay, the key `esc` makes no
outside call and returns the model with `inputMode = modeNormal`,
`searchTerm = ""` and `filtered = worktrees`, every other field unchanged. -/
theorem search_esc_restores (u : Unicode) (w : World) (m : model)
    (hm : m.inputMode = modeSearch) (hc : m.confirmDelete = false) :
    m.Update u w (.KeyMsg (str "esc")) =
      some ⟨{ m with inputMode := modeNormal, searchTerm := [], filtered := m.worktrees },
        .nil, []⟩ := by
  rw [Update_key_search u w m _ hm hc]
  rfl

/-- C7, the scenario. With the worktrees `main` and `feature/x`, typing
`/featur` leaves the single row `feature/x` in search mode, and `esc` then
returns to normal mode with the term cleared and both rows back. -/
theorem search_esc_restores_witness :
    exampleModel.run Unicode.ascii (keys world0 ["/", "f", "e", "a", "t", "u", "r"]) =
      some searchingModel ∧
    searchingModel.filtered = [exampleFeature] ∧
    searchingModel.Update Unicode.ascii world0 (.KeyMsg (str "esc")) =
      some ⟨{ searchingModel with
              inputMode := modeNormal, searchTerm := [], filtered := searchingModel.worktrees },
        .nil, []⟩ ∧
    { searchingModel with
      inputMode := modeNormal, searchTerm := [], filtered := searchingModel.worktrees } =
      exampleModel ∧
    exampleModel.filtered = [exampleMain, exampleFeature] :=
  ⟨by decide, rfl, search_esc_restores Unicode.ascii world0 searchingModel rfl rfl,
    by decide, rfl⟩

/-! ## C8: cancelling a delete -/

theorem updateConfirmDelete_cancel (u : Unicode) (w : World) (m : model) (k : GoString)
    (hk : k = str "n" ∨ k = str "N" ∨ k = str "esc") :
    m.updateConfirmDelete u w k =
      some ⟨{ m with confirmDelete := false, deleteTarget := none }, .nil, []⟩ := by
  rcases hk with rfl | rfl | rfl <;> rfl

/-- C8. In normal mode with the overlay closed and `deleteTarget = nil`, the
cursor being on an entry of the filtered list that is not the main worktree,
the key `d` opens the overlay and a following `n`, `N` or `esc` closes it: no
outside call is made by either key (in particular no delete) and the model
returned is the original one in every field. -/
theorem delete_then_cancel (u : Unicode) (w w' : World) (m : model) (wt : Worktree)
    (k : GoString) (hm : m.inputMode = modeNormal) (hc : m.confirmDelete = false)
    (ht : m.deleteTarget = none) (hidx : index m.filtered m.cursor = some wt)
    (hmain : strings.HasSuffix m.repoPath wt.Path = false)
    (hk : k = str "n" ∨ k = str "N" ∨ k = str "esc") :
    ∃ r1 r2, m.Update u w (.KeyMsg (str "d")) = some r1 ∧
      r1.m.confirmDelete = true ∧ r1.m.deleteTarget = some wt ∧ r1.calls = [] ∧
      r1.m.Update u w' (.KeyMsg k) = some r2 ∧ r2.calls = [] ∧ r2.cmd = .nil ∧
      r2.m = m := by
  have hlt := (index_eq_some _ _ _ hidx).2
  have h1 : m.Update u w (.KeyMsg (str "d")) =
      some ⟨{ m with confirmDelete := true, deleteTarget := some wt }, .nil, []⟩ := by
    rw [Update_key_normal u w m _ hm hc]
    show m.caseDelete = _
    simp [model.caseDelete, hlt, hidx, hmain]
  refine ⟨_, ⟨{ m with confirmDelete := false, deleteTarget := none }, .nil, []⟩, h1, rfl, rfl,
    rfl, ?_, rfl, rfl, ?_⟩
  · rw [Update_key_confirm u w' _ k rfl, updateConfirmDelete_cancel u w' _ k hk]
  · cases m
    simp only at hc ht
    simp [hc, ht]

theorem delete_then_cancel_witness :
    ∃ r1 r2,
      ({ exampleModel with cursor := 1 } : model).Update Unicode.ascii world0
        (.KeyMsg (str "d")) = some r1 ∧
      r1.m.confirmDelete = true ∧ r1.m.deleteTarget = some exampleFeature ∧ r1.calls = [] ∧
      r1.m.Update Unicode.ascii world0 (.KeyMsg (str "n")) = some r2 ∧ r2.calls = [] ∧
      r2.cmd = .nil ∧ r2.m = { exampleModel with cursor := 1 } :=
  delete_then_cancel Unicode.ascii world0 world0 { exampleModel with cursor := 1 }
    exampleFeature (str "n") rfl rfl rfl (by decide) (by decide) (Or.inl rfl)

/-! ## C9: the cursor and the filtered list -/

theorem updateConfirmDelete_cursorStep (u : Unicode) (w : World) (m : model) (k : GoString) :
    ∀ r, m.updateConfirmDelete u w k = some r → cursorStep m r.m := by
  intro r h
  unfold model.updateConfirmDelete at h
  split_ifs at h
  · split at h
    · split at h
      · cases h; exact Or.inl rfl
      · cases h; left; dsimp only; split <;> rfl
    · cases h; exact Or.inl rfl
  · cases h; exact Or.inl rfl
  · cases h; exact Or.inl rfl

theorem updateSearch_cursorStep (u : Unicode) (m : model) (k : GoString) :
    ∀ r, m.updateSearch u k = some r → cursorStep m r.m := by
  intro r h
  unfold model.updateSearch at h
  split_ifs at h <;> (cases h; exact Or.inl rfl)

theorem updateNewBranch_cursorStep (u : Unicode) (w : World) (m : model) (k : GoString) :
    ∀ r, m.updateNewBranch u w k = some r → cursorStep m r.m := by
  intro r h
  unfold model.updateNewBranch at h
  split_ifs at h
  · cases h; exact Or.inl rfl
  · split at h
    · cases h; exact Or.inl rfl
    · cases h; left; dsimp only; split <;> rfl
  all_goals (cases h; exact Or.inl rfl)

theorem updateNormal_cursorStep (u : Unicode) (w : World) (m : model) (k : GoString) :
    ∀ r, m.updateNormal u w k = some r → cursorStep m r.m := by
  apply updateNormal_cases u w m k (fun o => ∀ r, o = some r → cursorStep m r.m)
  · intro r h; cases h; exact Or.inl rfl
  · intro r h; unfold model.caseUp at h
    split_ifs at h with hpos
    · cases h; exact Or.inr ⟨rfl, Or.inl ⟨hpos, rfl⟩⟩
    · cases h; exact Or.inl rfl
  · intro r h; unfold model.caseDown at h
    split_ifs at h with hlt
    · cases h; exact Or.inr ⟨rfl, Or.inr ⟨hlt, rfl⟩⟩
    · cases h; exact Or.inl rfl
  · intro r h; cases h; exact Or.inl rfl
  · intro r h; cases h; exact Or.inl rfl
  · intro r h; unfold model.caseDelete at h
    split_ifs at h
    · split at h
      · cases h
      · split_ifs at h <;> (cases h; exact Or.inl rfl)
    · cases h; exact Or.inl rfl
  · intro r h; unfold model.caseRefresh at h
    split at h <;> (cases h; exact Or.inl rfl)
  · intro r h; unfold model.caseEnter at h
    split_ifs at h
    · split at h
      · cases h
      · dsimp only at h
        split at h <;> (cases h; exact Or.inl rfl)
    · cases h; exact Or.inl rfl
  · intro r h; cases h; exact Or.inl rfl

theorem Update_cursorStep (u : Unicode) (w : World) (m : model) (msg : Msg) :
    ∀ r, m.Update u w msg = some r → cursorStep m r.m := by
  apply Update_cases u w m msg (fun o => ∀ r, o = some r → cursorStep m r.m)
  · intro a b r h; cases h; exact Or.inl rfl
  · intro r h; cases h; exact Or.inl rfl
  · intro r h; cases h; exact Or.inl rfl
  · intro k _; exact updateConfirmDelete_cursorStep u w m k
  · intro k _ _; exact updateSearch_cursorStep u m k
  · intro k _ _; exact updateNewBranch_cursorStep u w m k
  · intro k _ _ _; exact updateNormal_cursorStep u w m k
  · intro r h; cases h; exact Or.inl rfl

theorem cursor_initialModel (repo : Except GoString GoString) (loaded : Option Config)
    (listing : Except GoString (List Worktree)) : (initialModel repo loaded listing).cursor = 0 := by
  unfold initialModel
  split
  · rfl
  · split <;> rfl

theorem cursor_nonneg_of_reachable (u : Unicode) (m : model) (h : Reachable u m) :
    0 ≤ m.cursor := by
  induction h with
  | init repo loaded listing => rw [cursor_initialModel]
  | step w msg r _ hstep ih =>
    rcases Update_cursorStep u w _ msg r hstep with h | ⟨_, ⟨_, h⟩ | ⟨_, h⟩⟩ <;> omega

/-- C9 (as amended). In every reachable model `cursor >= 0`. Every step from a
reachable model keeps `cursor >= 0`; it leaves the cursor where it was, or moves
it by exactly one row up or down inside an unchanged filtered list; when the
filtered list changes the cursor is not recomputed (it keeps its value); hence
the step keeps `cursor < len(filtered)` whenever the filtered list does not get
shorter in that step. When the cursor is at or beyond the end of the filtered
list, in normal mode without the overlay, the keys `d` and `enter` do nothing:
they return the model as it is, with no command and no outside call. -/
theorem cursor_kept_unless_list_shrinks (u : Unicode) (m : model) (h : Reachable u m) :
    0 ≤ m.cursor ∧
    (∀ (w : World) (msg : Msg) (r : Result), m.Update u w msg = some r →
      0 ≤ r.m.cursor ∧
      (r.m.cursor = m.cursor ∨
        (r.m.filtered = m.filtered ∧
          (r.m.cursor = m.cursor - 1 ∨ r.m.cursor = m.cursor + 1))) ∧
      (r.m.filtered ≠ m.filtered → r.m.cursor = m.cursor) ∧
      (m.cursor < (m.filtered.length : Int) → m.filtered.length ≤ r.m.filtered.length →
        r.m.cursor < (r.m.filtered.length : Int))) ∧
    (m.inputMode = modeNormal → m.confirmDelete = false →
      (m.filtered.length : Int) ≤ m.cursor → ∀ w : World,
        m.Update u w (.KeyMsg (str "d")) = some ⟨m, .nil, []⟩ ∧
        m.Update u w (.KeyMsg (str "enter")) = some ⟨m, .nil, []⟩) := by
  have h0 := cursor_nonneg_of_reachable u m h
  refine ⟨h0, ?_, ?_⟩
  · intro w msg r hstep
    refine ⟨cursor_nonneg_of_reachable u r.m (Reachable.step w msg r h hstep), ?_, ?_, ?_⟩
    · rcases Update_cursorStep u w m msg r hstep with hc | ⟨hf, ⟨_, hc⟩ | ⟨_, hc⟩⟩
      · exact Or.inl hc
      · exact Or.inr ⟨hf, Or.inl hc⟩
      · exact Or.inr ⟨hf, Or.inr hc⟩
    · intro hne
      rcases Update_cursorStep u w m msg r hstep with hc | ⟨hf, _⟩
      · exact hc
      · exact absurd hf hne
    · intro hlt hlen
      rcases Update_cursorStep u w m msg r hstep with hc | ⟨hf, ⟨_, hc⟩ | ⟨hd, hc⟩⟩
      · omega
      · rw [hf]; omega
      · rw [hf]; omega
  · intro hm hc hge w
    have hnlt : ¬ m.cursor < (m.filtered.length : Int) := by omega
    constructor
    · rw [Update_key_normal u w m _ hm hc]
      show m.caseDelete = _
      rw [model.caseDelete, if_neg hnlt]
    · rw [Update_key_normal u w m _ hm hc]
      show m.caseEnter w = _
      rw [model.caseEnter, if_neg hnlt]

theorem cursor_kept_unless_list_shrinks_witness :
    0 ≤ deletedModel.cursor ∧
    (∀ (w : World) (msg : Msg) (r : Result), deletedModel.Update Unicode.ascii w msg = some r →
      0 ≤ r.m.cursor ∧
      (r.m.cursor = deletedModel.cursor ∨
        (r.m.filtered = deletedModel.filtered ∧
          (r.m.cursor = deletedModel.cursor - 1 ∨ r.m.cursor = deletedModel.cursor + 1))) ∧
      (r.m.filtered ≠ deletedModel.filtered → r.m.cursor = deletedModel.cursor) ∧
      (deletedModel.cursor < (deletedModel.filtered.length : Int) →
        deletedModel.filtered.length ≤ r.m.filtered.length →
        r.m.cursor < (r.m.filtered.length : Int))) ∧
    (deletedModel.inputMode = modeNormal → deletedModel.confirmDelete = false →
      (deletedModel.filtered.length : Int) ≤ deletedModel.cursor → ∀ w : World,
        deletedModel.Update Unicode.ascii w (.KeyMsg (str "d")) =
          some ⟨deletedModel, .nil, []⟩ ∧
        deletedModel.Update Unicode.ascii w (.KeyMsg (str "enter")) =
          some ⟨deletedModel, .nil, []⟩) :=
  cursor_kept_unless_list_shrinks Unicode.ascii deletedModel
    (reachable_run Unicode.ascii
      (keys world0 ["down", "d"] ++ keys (exampleWorld clockNow [exampleMain]) ["y"])
      exampleModel deletedModel (Reachable.init _ _ _) (by decide))

/-- C9, counterexample. From the initial model with the worktrees `main` and
`feature/x`, the keys `down`, `/`, `m`, `a`, `i`, `n` lead (for every `Unicode`)
to a reachable model whose filtered list is the single row `main` while the
cursor is still 1: the filtered list is non-empty and `cursor < len(filtered)`
fails. -/
theorem cursor_beyond_filtered_after_search :
    (∀ u : Unicode,
      exampleModel.run u (keys world0 ["down", "/", "m", "a", "i", "n"]) = some overshotModel) ∧
    (∀ u : Unicode, Reachable u overshotModel) ∧
    overshotModel.filtered ≠ [] ∧
    ¬ (0 ≤ overshotModel.cursor ∧
      overshotModel.cursor < (overshotModel.filtered.length : Int)) := by
  have hrun : ∀ u : Unicode,
      exampleModel.run u (keys world0 ["down", "/", "m", "a", "i", "n"]) = some overshotModel :=
    fun u => rfl
  exact ⟨hrun, fun u => reachable_run u _ _ _ (Reachable.init _ _ _) (hrun u),
    by decide, by decide⟩

/-! ## C10: the filtered list as a view of the search term -/

/-- How a step may break the view: by entering search mode, which clears the
term and leaves the filtered list as it was. -/
theorem view_kept_except_entering_search (u : Unicode) (w : World) (m : model) (msg : Msg)
    (hinv : viewInv u m) :
    ∀ r, m.Update u w msg = some r →
      viewInv u r.m ∨
      (m.inputMode ≠ modeSearch ∧ r.m.inputMode = modeSearch ∧ r.m.searchTerm = [] ∧
        r.m.filtered = m.filtered ∧ r.m.worktrees = m.worktrees) := by
  apply Update_cases u w m msg (fun o => ∀ r, o = some r →
      viewInv u r.m ∨
      (m.inputMode ≠ modeSearch ∧ r.m.inputMode = modeSearch ∧ r.m.searchTerm = [] ∧
        r.m.filtered = m.filtered ∧ r.m.worktrees = m.worktrees))
  · intro a b r h; cases h; exact Or.inl hinv
  · intro r h; cases h; exact Or.inl hinv
  · intro r h; cases h; exact Or.inl hinv
  · intro k _ r h
    unfold model.updateConfirmDelete at h
    split_ifs at h
    · split at h
      · split at h
        · cases h; exact Or.inl hinv
        · cases h; left; dsimp only; split
          · rfl
          · exact hinv
      · cases h; exact Or.inl hinv
    · cases h; exact Or.inl hinv
    · cases h; exact Or.inl hinv
  · intro k _ _ r h
    unfold model.updateSearch at h
    split_ifs at h
    · cases h; left; simp [viewInv, filterWorktrees_nil]
    · cases h; exact Or.inl hinv
    · cases h; exact Or.inl rfl
    · cases h; exact Or.inl hinv
    · cases h; exact Or.inl rfl
    · cases h; exact Or.inl hinv
  · intro k _ _ r h
    unfold model.updateNewBranch at h
    split_ifs at h
    · cases h; exact Or.inl hinv
    · split at h
      · cases h; exact Or.inl hinv
      · cases h; left; dsimp only; split
        · rfl
        · exact hinv
    all_goals (cases h; exact Or.inl hinv)
  · intro k _ hns _
    apply updateNormal_cases u w m k (fun o => ∀ r, o = some r →
      viewInv u r.m ∨
      (m.inputMode ≠ modeSearch ∧ r.m.inputMode = modeSearch ∧ r.m.searchTerm = [] ∧
        r.m.filtered = m.filtered ∧ r.m.worktrees = m.worktrees))
    · intro r h; cases h; exact Or.inl hinv
    · intro r h; unfold model.caseUp at h
      split_ifs at h <;> (cases h; exact Or.inl hinv)
    · intro r h; unfold model.caseDown at h
      split_ifs at h <;> (cases h; exact Or.inl hinv)
    · intro r h; cases h; exact Or.inr ⟨hns, rfl, rfl, rfl, rfl⟩
    · intro r h; cases h; exact Or.inl hinv
    · intro r h; unfold model.caseDelete at h
      split_ifs at h
      · split at h
        · cases h
        · split_ifs at h <;> (cases h; exact Or.inl hinv)
      · cases h; exact Or.inl hinv
    · intro r h; unfold model.caseRefresh at h
      split at h
      · cases h; exact Or.inl rfl
      · cases h; exact Or.inl hinv
    · intro r h; unfold model.caseEnter at h
      split_ifs at h
      · split at h
        · cases h
        · dsimp only at h
          split at h <;> (cases h; exact Or.inl hinv)
      · cases h; exact Or.inl hinv
    · intro r h; cases h; exact Or.inl hinv
  · intro r h; cases h; exact Or.inl hinv

/-- C10, the failing run. From the initial model with the worktrees `main` and
`feature/x`, the keys `/`, `f`, `enter`, `/` lead (for every `Unicode`) to a
reachable model with `searchTerm = ""` whose filtered list is still the single
row `feature/x`, whereas `filterWorktrees(worktrees, "")` is the full list. -/
theorem filtered_stale_after_slash :
    (∀ u : Unicode,
      exampleModel.run u (keys world0 ["/", "f", "enter", "/"]) = some staleModel) ∧
    (∀ u : Unicode, Reachable u staleModel) ∧
    staleModel.searchTerm = [] ∧
    staleModel.filtered = [exampleFeature] ∧
    (∀ u : Unicode, filterWorktrees u staleModel.worktrees staleModel.searchTerm =
      [exampleMain, exampleFeature]) ∧
    (∀ u : Unicode,
      staleModel.filtered ≠ filterWorktrees u staleModel.worktrees staleModel.searchTerm) := by
  have hrun : ∀ u : Unicode,
      exampleModel.run u (keys world0 ["/", "f", "enter", "/"]) = some staleModel :=
    fun u => rfl
  have hview : ∀ u : Unicode, filterWorktrees u staleModel.worktrees staleModel.searchTerm =
      [exampleMain, exampleFeature] := fun u => rfl
  refine ⟨hrun, fun u => reachable_run u _ _ _ (Reachable.init _ _ _) (hrun u), rfl, rfl,
    hview, fun u => ?_⟩
  rw [hview u]
  decide

/-! ## C11: the fatal start-up model -/

theorem initialModel_fatal (e : GoString) :
    (∀ loaded listing, initialModel (.error e) loaded listing = fatalModel e) ∧
    (∀ repoPath loaded, initialModel (.ok repoPath) loaded (.error e) = fatalModel e) :=
  ⟨fun _ _ => rfl, fun _ _ => rfl⟩

theorem View_of_err (m : model) (e : GoString) (h : m.err = some e) :
    m.View = some (errorFrame e) := by
  simp [model.View, h, errorFrame]

/-- C11 (as amended). For the fatal start-up model `model{err: e}` that
`initialModel` returns when the repository root or the listing fails: `q` and
`ctrl+c` return the quit command; every key other than `q`, `ctrl+c`, `/`, `n`
and `r` returns the model unchanged in every field; and whatever the key, the
returned model still carries the error `e` and `View` draws the error screen. -/
theorem fatal_model_keys (u : Unicode) (w : World) (e k : GoString) :
    ((k = str "q" ∨ k = str "ctrl+c") →
      (fatalModel e).Update u w (.KeyMsg k) =
        some ⟨{ fatalModel e with quitting := true }, .Quit, []⟩) ∧
    (k ≠ str "q" → k ≠ str "ctrl+c" → k ≠ str "/" → k ≠ str "n" → k ≠ str "r" →
      (fatalModel e).Update u w (.KeyMsg k) = some ⟨fatalModel e, .nil, []⟩) ∧
    (∃ r, (fatalModel e).Update u w (.KeyMsg k) = some r ∧ r.m.err = some e ∧
      r.m.View = some (errorFrame e)) := by
  have hupd : (fatalModel e).Update u w (.KeyMsg k) = (fatalModel e).updateNormal u w k :=
    Update_key_normal u w _ k rfl rfl
  rw [hupd]
  refine ⟨?_, ?_, ?_⟩
  · intro hk
    unfold model.updateNormal
    rw [if_pos hk]
    rfl
  · intro h1 h2 h3 h4 h5
    unfold model.updateNormal
    rw [if_neg (by simp [h1, h2])]
    split_ifs
    · rfl
    · rfl
    · rfl
    · rfl
    · rfl
  · apply updateNormal_cases u w (fatalModel e) k
      (fun o => ∃ r, o = some r ∧ r.m.err = some e ∧ r.m.View = some (errorFrame e))
    · exact ⟨_, rfl, rfl, View_of_err _ e rfl⟩
    · exact ⟨_, rfl, rfl, View_of_err _ e rfl⟩
    · exact ⟨_, rfl, rfl, View_of_err _ e rfl⟩
    · exact ⟨_, rfl, rfl, View_of_err _ e rfl⟩
    · exact ⟨_, rfl, rfl, View_of_err _ e rfl⟩
    · exact ⟨_, rfl, rfl, View_of_err _ e rfl⟩
    · unfold model.caseRefresh
      split
      · exact ⟨_, rfl, rfl, View_of_err _ e rfl⟩
      · exact ⟨_, rfl, rfl, View_of_err _ e rfl⟩
    · exact ⟨_, rfl, rfl, View_of_err _ e rfl⟩
    · exact ⟨_, rfl, rfl, View_of_err _ e rfl⟩

theorem fatal_model_keys_witness :
    (fatalModel notInRepo).Update Unicode.ascii world0 (.KeyMsg (str "x")) =
      some ⟨fatalModel notInRepo, .nil, []⟩ :=
  (fatal_model_keys Unicode.ascii world0 notInRepo (str "x")).2.1
    (by decide) (by decide) (by decide) (by decide) (by decide)

/-- C11, counterexample. On the fatal start-up model the key `/`, which is
neither `q` nor `ctrl+c`, returns a model in search mode, not the model
unchanged; in that model `q` is added to the search term and no quit command
is returned. -/
theorem fatal_model_accepts_slash :
    (∀ (u : Unicode) (w : World),
      (fatalModel notInRepo).Update u w (.KeyMsg (str "/")) =
        some ⟨{ fatalModel notInRepo with inputMode := modeSearch }, .nil, []⟩) ∧
    ({ fatalModel notInRepo with inputMode := modeSearch } : model) ≠ fatalModel notInRepo ∧
    (∀ (u : Unicode) (w : World),
      ({ fatalModel notInRepo with inputMode := modeSearch } : model).Update u w
          (.KeyMsg (str "q")) =
        some ⟨{ fatalModel notInRepo with inputMode := modeSearch, searchTerm := str "q" },
          .nil, []⟩) :=
  ⟨fun _ _ => rfl, by decide, fun _ _ => rfl⟩

/-! ## C12: failures of the outside operations -/

theorem updateNormal_r (u : Unicode) (w : World) (m : model) :
    m.updateNormal u w (str "r") = m.caseRefresh u w := rfl

theorem updateNewBranch_enter (u : Unicode) (w : World) (m : model) :
    m.updateNewBranch u w (str "enter") =
      if m.inputValue ≠ [] then
        match w.createWorktree m.repoPath m.inputValue m.config with
        | some err =>
          some ⟨{ m with err := some err, inputMode := modeNormal, inputValue := [] }, .tickCmd,
            [.createWorktree m.repoPath m.inputValue m.config]⟩
        | none =>
          let m1 := { m with statusMessage := str "Created worktree: " ++ m.inputValue,
                             statusTimeout := w.now + 3 * Second }
          let m2 := match w.getWorktrees m.repoPath with
            | .ok worktrees =>
              { m1 with worktrees := worktrees,
                        filtered := filterWorktrees u worktrees m1.searchTerm }
            | .error _ => m1
          some ⟨{ m2 with inputMode := modeNormal, inputValue := [] }, .tickCmd,
            [.createWorktree m.repoPath m.inputValue m.config, .getWorktrees m.repoPath]⟩
      else some ⟨{ m with inputMode := modeNormal, inputValue := [] }, .tickCmd, []⟩ := rfl

theorem updateConfirmDelete_yes (u : Unicode) (w : World) (m : model) (k : GoString)
    (hk : k = str "y" ∨ k = str "Y") :
    m.updateConfirmDelete u w k =
      match m.deleteTarget with
      | some target =>
        match w.deleteWorktree m.repoPath target.Path with
        | some err =>
          some ⟨{ m with err := some err, confirmDelete := false, deleteTarget := none },
            .tickCmd, [.deleteWorktree m.repoPath target.Path]⟩
        | none =>
          let m1 := { m with statusMessage := str "Deleted worktree: " ++ target.Branch,
                             statusTimeout := w.now + 3 * Second }
          let m2 := match w.getWorktrees m.repoPath with
            | .ok worktrees =>
              { m1 with worktrees := worktrees,
                        filtered := filterWorktrees u worktrees m1.searchTerm }
            | .error _ => m1
          some ⟨{ m2 with confirmDelete := false, deleteTarget := none }, .tickCmd,
            [.deleteWorktree m.repoPath target.Path, .getWorktrees m.repoPath]⟩
      | none => some ⟨{ m with confirmDelete := false, deleteTarget := none }, .tickCmd, []⟩ := by
  rcases hk with rfl | rfl <;> rfl

/-- C12 (as amended). A failed create (`enter` in create-branch mode with a
non-empty name) and a failed delete (`y`/`Y` on the overlay with a target) are
recorded: the returned model has `err` set to the error, its `worktrees` and
`filtered` lists are unchanged, the command is the tick and `quitting` is
untouched. A failed refresh (`r` in normal mode) is not recorded: `Update`
returns the model unchanged in every field, `err` included, with the tick. -/
theorem operation_failures (u : Unicode) (w : World) (m : model) (e : GoString) :
    (m.confirmDelete = false → m.inputMode = modeNewBranch → m.inputValue ≠ [] →
      w.createWorktree m.repoPath m.inputValue m.config = some e →
      ∃ r, m.Update u w (.KeyMsg (str "enter")) = some r ∧ r.m.err = some e ∧
        r.m.worktrees = m.worktrees ∧ r.m.filtered = m.filtered ∧
        r.cmd = .tickCmd ∧ r.m.quitting = m.quitting) ∧
    (∀ target k, m.confirmDelete = true → m.deleteTarget = some target →
      (k = str "y" ∨ k = str "Y") → w.deleteWorktree m.repoPath target.Path = some e →
      ∃ r, m.Update u w (.KeyMsg k) = some r ∧ r.m.err = some e ∧
        r.m.worktrees = m.worktrees ∧ r.m.filtered = m.filtered ∧
        r.cmd = .tickCmd ∧ r.m.quitting = m.quitting) ∧
    (m.confirmDelete = false → m.inputMode = modeNormal →
      w.getWorktrees m.repoPath = .error e →
      m.Update u w (.KeyMsg (str "r")) = some ⟨m, .tickCmd, [.getWorktrees m.repoPath]⟩) := by
  refine ⟨?_, ?_, ?_⟩
  · intro hc hm hv hfail
    rw [Update_key_newBranch u w m _ hm hc, updateNewBranch_enter, if_pos hv]
    simp only [hfail]
    exact ⟨_, rfl, rfl, rfl, rfl, rfl, rfl⟩
  · intro target k hc ht hk hfail
    rw [Update_key_confirm u w m _ hc, updateConfirmDelete_yes u w m k hk]
    simp only [ht, hfail]
    exact ⟨_, rfl, rfl, rfl, rfl, rfl, rfl⟩
  · intro hc hm hfail
    rw [Update_key_normal u w m _ hm hc, updateNormal_r, model.caseRefresh]
    simp only [hfail]

theorem operation_failures_witness :
    ∃ r, armedModel.Update Unicode.ascii (failingWorld 0 (str "exit status 128"))
        (.KeyMsg (str "y")) = some r ∧
      r.m.err = some (str "exit status 128") ∧
      r.m.worktrees = armedModel.worktrees ∧ r.m.filtered = armedModel.filtered ∧
      r.cmd = .tickCmd ∧ r.m.quitting = armedModel.quitting :=
  (operation_failures Unicode.ascii (failingWorld 0 (str "exit status 128")) armedModel
    (str "exit status 128")).2.1 exampleFeature (str "y") rfl rfl (Or.inl rfl) rfl

/-- C12, counterexample. In normal mode with no error recorded, the key `r`
while the listing fails returns the model unchanged: `err` is still nil. -/
theorem refresh_failure_not_recorded :
    exampleModel.err = none ∧
    (∀ u : Unicode,
      exampleModel.Update u (failingWorld 0 (str "exit status 128")) (.KeyMsg (str "r")) =
        some ⟨exampleModel, .tickCmd, [.getWorktrees exampleModel.repoPath]⟩) :=
  ⟨rfl, fun _ => rfl⟩

/-! ## C13: a recorded error stays -/

theorem updateConfirmDelete_err (u : Unicode) (w : World) (m : model) (k : GoString) :
    ∀ r, m.updateConfirmDelete u w k = some r → r.m.err = m.err ∨ r.m.err ≠ none := by
  intro r h
  unfold model.updateConfirmDelete at h
  split_ifs at h
  · split at h
    · split at h
      · cases h; exact Or.inr (by simp)
      · cases h; left; dsimp only; split <;> rfl
    · cases h; exact Or.inl rfl
  · cases h; exact Or.inl rfl
  · cases h; exact Or.inl rfl

theorem updateSearch_err (u : Unicode) (m : model) (k : GoString) :
    ∀ r, m.updateSearch u k = some r → r.m.err = m.err := by
  intro r h
  unfold model.updateSearch at h
  split_ifs at h <;> (cases h; rfl)

theorem updateNewBranch_err (u : Unicode) (w : World) (m : model) (k : GoString) :
    ∀ r, m.updateNewBranch u w k = some r → r.m.err = m.err ∨ r.m.err ≠ none := by
  intro r h
  unfold model.updateNewBranch at h
  split_ifs at h
  · cases h; exact Or.inl rfl
  · split at h
    · cases h; exact Or.inr (by simp)
    · cases h; left; dsimp only; split <;> rfl
  all_goals (cases h; exact Or.inl rfl)

theorem updateNormal_err (u : Unicode) (w : World) (m : model) (k : GoString) :
    ∀ r, m.updateNormal u w k = some r → r.m.err = m.err ∨ r.m.err ≠ none := by
  apply updateNormal_cases u w m k (fun o => ∀ r, o = some r → r.m.err = m.err ∨ r.m.err ≠ none)
  · intro r h; cases h; exact Or.inl rfl
  · intro r h; unfold model.caseUp at h
    split_ifs at h <;> (cases h; exact Or.inl rfl)
  · intro r h; unfold model.caseDown at h
    split_ifs at h <;> (cases h; exact Or.inl rfl)
  · intro r h; cases h; exact Or.inl rfl
  · intro r h; cases h; exact Or.inl rfl
  · intro r h; unfold model.caseDelete at h
    split_ifs at h
    · split at h
      · cases h
      · split_ifs at h
        · cases h; exact Or.inr (by simp)
        · cases h; exact Or.inl rfl
    · cases h; exact Or.inl rfl
  · intro r h; unfold model.caseRefresh at h
    split at h <;> (cases h; exact Or.inl rfl)
  · intro r h; unfold model.caseEnter at h
    split_ifs at h
    · split at h
      · cases h
      · dsimp only at h
        split at h
        · cases h; exact Or.inr (by simp)
        · cases h; exact Or.inl rfl
    · cases h; exact Or.inl rfl
  · intro r h; cases h; exact Or.inl rfl

theorem Update_err (u : Unicode) (w : World) (m : model) (msg : Msg) :
    ∀ r, m.Update u w msg = some r → r.m.err = m.err ∨ r.m.err ≠ none := by
  apply Update_cases u w m msg (fun o => ∀ r, o = some r → r.m.err = m.err ∨ r.m.err ≠ none)
  · intro a b r h; cases h; exact Or.inl rfl
  · intro r h; cases h; exact Or.inl rfl
  · intro r h; cases h; exact Or.inl rfl
  · intro k _; exact updateConfirmDelete_err u w m k
  · intro k _ _ r h; exact Or.inl (updateSearch_err u m k r h)
  · intro k _ _; exact updateNewBranch_err u w m k
  · intro k _ _ _; exact updateNormal_err u w m k
  · intro r h; cases h; exact Or.inl rfl

/-- C13 (as amended). A recorded error is never cleared: for every model with
`err` non-nil and every message, whatever the outside operations return (in
particular `r` with a successful listing, create-branch `enter` with a
successful create and overlay `y` with a successful delete), the model returned
by `Update` has `err` non-nil, and `View` draws the error screen for it, not
the list. -/
theorem recorded_error_stays (u : Unicode) (w : World) (m : model) (msg : Msg) (r : Result)
    (herr : m.err ≠ none) (hstep : m.Update u w msg = some r) :
    r.m.err ≠ none ∧ ∃ e, r.m.err = some e ∧ r.m.View = some (errorFrame e) := by
  have hne : r.m.err ≠ none := by
    rcases Update_err u w m msg r hstep with h | h
    · rw [h]; exact herr
    · exact h
  refine ⟨hne, ?_⟩
  cases he : r.m.err with
  | none => exact absurd he hne
  | some e => exact ⟨e, rfl, View_of_err _ e he⟩

theorem recorded_error_stays_witness :
    ({ erroredModel with
        statusMessage := str "Refreshed", statusTimeout := 0 + 2 * Second } : model).err ≠ none ∧
    ∃ e, ({ erroredModel with
        statusMessage := str "Refreshed", statusTimeout := 0 + 2 * Second } : model).err = some e ∧
      ({ erroredModel with
        statusMessage := str "Refreshed", statusTimeout := 0 + 2 * Second } : model).View =
        some (errorFrame e) :=
  recorded_error_stays Unicode.ascii world0 erroredModel (.KeyMsg (str "r"))
    ⟨{ erroredModel with statusMessage := str "Refreshed", statusTimeout := 0 + 2 * Second },
      .tickCmd, [.getWorktrees erroredModel.repoPath]⟩ (by decide) rfl

/-- C13, counterexample. With the error "cannot delete main worktree"
recorded, the key `r` with a successful listing sets the status "Refreshed" and
leaves `err` as it was: `err` is not nil and `View` still draws the error
screen. -/
theorem error_kept_after_successful_refresh :
    erroredModel.err = some (str "cannot delete main worktree") ∧
    (∀ u : Unicode,
      erroredModel.Update u world0 (.KeyMsg (str "r")) =
        some ⟨{ erroredModel with
                statusMessage := str "Refreshed", statusTimeout := 0 + 2 * Second },
          .tickCmd, [.getWorktrees erroredModel.repoPath]⟩) ∧
    ({ erroredModel with
        statusMessage := str "Refreshed", statusTimeout := 0 + 2 * Second } : model).err ≠ none ∧
    ({ erroredModel with
        statusMessage := str "Refreshed", statusTimeout := 0 + 2 * Second } : model).View =
      some (errorFrame (str "cannot delete main worktree")) :=
  ⟨rfl, fun _ => rfl, by decide, by decide⟩

/-! ## C14: the branch resolution of `createWorktree` -/

theorem strings.ReplaceAll_spec (s : GoString) (old new : UInt8) (h : new ≠ old) :
    (strings.ReplaceAll s old new).length = s.length ∧
    old ∉ strings.ReplaceAll s old new ∧
    ∀ (i : Nat) (c : UInt8), s[i]? = some c →
      (strings.ReplaceAll s old new)[i]? = some (if c = old then new else c) := by
  refine ⟨by simp [strings.ReplaceAll], ?_, ?_⟩
  · intro hmem
    simp only [strings.ReplaceAll, List.mem_map] at hmem
    obtain ⟨c, _, hc⟩ := hmem
    split_ifs at hc with hco
    · exact h hc
    · exact hco hc
  · intro i c hi
    simp [strings.ReplaceAll, List.getElem?_map, hi]

theorem createWorktree.addArgs_fresh_iff (localErr : Option GoString)
    (remote : GoString × Option GoString) (branch worktreePath : GoString) :
    createWorktree.addArgs localErr remote branch worktreePath =
        [str "worktree", str "add", str "-b", branch, worktreePath] ↔
      localErr ≠ none ∧ (remote.2 ≠ none ∨ remote.1 = []) := by
  unfold createWorktree.addArgs
  split_ifs with h1 h2
  · simp only [true_iff]
    exact ⟨h1, h2.imp id List.length_eq_zero.mp⟩
  · constructor
    · intro h
      have := congrArg List.length h
      simp at this
    · rintro ⟨_, h⟩
      exact absurd (h.imp id (fun hn => by simp [hn])) h2
  · constructor
    · intro h
      have := congrArg List.length h
      simp at this
    · rintro ⟨h, _⟩
      exact absurd h h1

/-- C14 (as amended). With the error of the local-ref check and the result of
the remote-heads query as inputs, `createWorktree` (once the storage directory
exists) ends with one `git worktree add` command, in the repository root, on
the path `filepath.Join(storageDir, branch with every "/" replaced by "-")`.
Its argument list is `worktree add <path> <branch>` when the local ref exists and
also when it does not but a remote head does, and `worktree add -b <branch>
<path>` exactly when neither exists: two distinct invocations for the three
outcomes. The remote heads are queried only after the local check failed. -/
theorem createWorktree_resolution (fp : Filepath) (cw : CreateWorld)
    (repoPath branch : GoString) (config : Option Config)
    (hdir : cw.MkdirAll (createWorktree.worktreeDir fp repoPath config) = none) :
    let path := fp.Join (createWorktree.worktreeDir fp repoPath config)
      (strings.ReplaceAll branch 47 45)
    let localErr := (cw.git repoPath [str "rev-parse", str "--verify", branch]).2
    let remote := cw.git repoPath [str "ls-remote", str "--heads", str "origin", branch]
    let attach := [str "worktree", str "add", path, branch]
    let fresh := [str "worktree", str "add", str "-b", branch, path]
    let add := createWorktree.addArgs localErr remote branch path
    (createWorktree fp cw repoPath branch config).2.getLast? = some (.git repoPath add) ∧
    (localErr = none → add = attach ∧
      SysCall.git repoPath [str "ls-remote", str "--heads", str "origin", branch] ∉
        (createWorktree fp cw repoPath branch config).2.dropLast) ∧
    (localErr ≠ none → remote.2 = none → remote.1 ≠ [] → add = attach) ∧
    (localErr ≠ none → (remote.2 ≠ none ∨ remote.1 = []) → add = fresh) ∧
    (add = fresh ↔ localErr ≠ none ∧ (remote.2 ≠ none ∨ remote.1 = [])) ∧
    (add = attach ∨ add = fresh) ∧ attach ≠ fresh ∧
    (strings.ReplaceAll branch 47 45).length = branch.length ∧
    47 ∉ strings.ReplaceAll branch 47 45 ∧
    (∀ (i : Nat) (c : UInt8), branch[i]? = some c →
      (strings.ReplaceAll branch 47 45)[i]? = some (if c = 47 then 45 else c)) := by
  intro path localErr remote attach fresh add
  have hne : attach ≠ fresh := by
    intro h
    have := congrArg List.length h
    simp [attach, fresh] at this
  have hiff := createWorktree.addArgs_fresh_iff localErr remote branch path
  have hcases : add = attach ∨ add = fresh := by
    show createWorktree.addArgs localErr remote branch path = attach ∨
      createWorktree.addArgs localErr remote branch path = fresh
    unfold createWorktree.addArgs
    split_ifs
    · exact Or.inr rfl
    · exact Or.inl rfl
    · exact Or.inl rfl
  have hattach : ¬ (localErr ≠ none ∧ (remote.2 ≠ none ∨ remote.1 = [])) → add = attach := by
    intro h
    rcases hcases with h' | h'
    · exact h'
    · exact absurd (hiff.mp h') h
  obtain ⟨hlen, hno, hget⟩ := strings.ReplaceAll_spec branch 47 45 (by decide)
  have hcalls : (createWorktree fp cw repoPath branch config).2 =
      [SysCall.MkdirAll (createWorktree.worktreeDir fp repoPath config)] ++
        createWorktree.ignoreCalls fp cw repoPath (createWorktree.worktreeDir fp repoPath config) ++
        createWorktree.probes cw repoPath branch ++ [SysCall.git repoPath add] := by
    simp only [createWorktree, hdir]
    split <;> rfl
  refine ⟨?_, ?_, ?_, ?_, hiff, hcases, hne, hlen, hno, hget⟩
  · rw [hcalls, List.getLast?_append]
    rfl
  · intro hl
    refine ⟨hattach (fun h => h.1 hl), ?_⟩
    rw [hcalls, List.dropLast_concat]
    have hl' : (cw.git repoPath [str "rev-parse", str "--verify", branch]).2 = none := hl
    intro hmem
    simp only [List.mem_append, List.mem_singleton] at hmem
    rcases hmem with (h | h) | h
    · cases h
    · unfold createWorktree.ignoreCalls at h
      simp only [] at h
      split_ifs at h
      · split at h <;> simp at h
      · simp at h
      · simp at h
    · simp only [createWorktree.probes, hl', ne_eq, not_true_eq_false, if_false,
        List.mem_singleton, SysCall.git.injEq, true_and] at h
      have := congrArg List.length h
      simp at this
  · intro hl he ho
    exact hattach (fun h => h.2.elim (fun h' => h' he) (fun h' => ho h'))
  · intro hl hr
    exact hiff.mpr ⟨hl, hr⟩

theorem createWorktree_resolution_witness :
    (createWorktree Filepath.plain (exampleCreateWorld answerNoBranch) (str "/repo")
        (str "feature/x") none).2.getLast? =
      some (.git (str "/repo")
        [str "worktree", str "add", str "-b", str "feature/x",
          str "/repo/.worktrees/feature-x"]) :=
  (createWorktree_resolution Filepath.plain (exampleCreateWorld answerNoBranch) (str "/repo")
    (str "feature/x") none rfl).1

/-- C14, counterexample. For the branch `feature/x` and the path
`/repo/.worktrees/feature-x`, the outcome "the local ref exists" and the
outcome "no local ref, but a remote head exists" build the same argument list
`worktree add <path> <branch>`: the three outcomes are not three pairwise
distinct invocations. -/
theorem worktree_add_local_and_remote_coincide :
    createWorktree.addArgs none ([], none) (str "feature/x")
        (str "/repo/.worktrees/feature-x") =
      [str "worktree", str "add", str "/repo/.worktrees/feature-x", str "feature/x"] ∧
    createWorktree.addArgs (some (str "exit status 128"))
        (str "4b825dc642cb6eb9a060e54bf8d69288fbee4904\trefs/heads/feature/x\n", none)
        (str "feature/x") (str "/repo/.worktrees/feature-x") =
      [str "worktree", str "add", str "/repo/.worktrees/feature-x", str "feature/x"] ∧
    createWorktree.addArgs none ([], none) (str "feature/x")
        (str "/repo/.worktrees/feature-x") =
      createWorktree.addArgs (some (str "exit status 128"))
        (str "4b825dc642cb6eb9a060e54bf8d69288fbee4904\trefs/heads/feature/x\n", none)
        (str "feature/x") (str "/repo/.worktrees/feature-x") := by
  decide

/-! ## C15: the porcelain parser -/

theorem strings.HasPrefix_append (p s : GoString) : strings.HasPrefix (p ++ s) p = true := by
  simp [strings.HasPrefix]

theorem strings.TrimPrefix_append (p s : GoString) : strings.TrimPrefix (p ++ s) p = s := by
  simp [strings.TrimPrefix, strings.HasPrefix]

theorem strings.HasPrefix_cons_ne (a b : UInt8) (s t : GoString) (h : a ≠ b) :
    strings.HasPrefix (a :: s) (b :: t) = false := by
  simp [strings.HasPrefix, List.isPrefixOf, h.symm]

theorem strings.Split_unlines (ls : List GoString) (h : ∀ l ∈ ls, 10 ∉ l) :
    strings.Split (unlines ls) 10 = ls ++ [[]] := by
  induction ls with
  | nil => rfl
  | cons l ls ih =>
    have hl : (10 : UInt8) ∉ l := h l (List.mem_cons_self _ _)
    have hrest := ih (fun l' hl' => h l' (List.mem_cons_of_mem _ hl'))
    have : unlines (l :: ls) = l ++ 10 :: unlines ls := by simp [unlines]
    rw [strings.Split, this, strings.splitLoop_append_sep, strings.splitLoop_no_sep 10 l [] hl]
    rw [strings.Split] at hrest
    rw [hrest]
    rfl

theorem strings.Split_joinLines (ls : List GoString) (hne : ls ≠ []) (h : ∀ l ∈ ls, 10 ∉ l) :
    strings.Split (joinLines ls) 10 = ls := by
  induction ls with
  | nil => exact absurd rfl hne
  | cons l ls ih =>
    have hl : (10 : UInt8) ∉ l := h l (List.mem_cons_self _ _)
    cases ls with
    | nil => simp [joinLines, strings.Split, strings.splitLoop_no_sep 10 l [] hl]
    | cons l' ls' =>
      have hrest := ih (by simp) (fun x hx => h x (List.mem_cons_of_mem _ hx))
      have : joinLines (l :: l' :: ls') = l ++ 10 :: joinLines (l' :: ls') := by
        simp [joinLines]
      rw [strings.Split, this, strings.splitLoop_append_sep,
        strings.splitLoop_no_sep 10 l [] hl]
      rw [strings.Split] at hrest
      rw [hrest]
      rfl

theorem getWorktrees.parseLoop_worktree (p : GoString) (rest : List GoString) (cur : Worktree)
    (acc : List Worktree) :
    getWorktrees.parseLoop ((str "worktree " ++ p) :: rest) cur acc =
      getWorktrees.parseLoop rest { Path := p }
        (if cur.Path ≠ [] then acc ++ [cur] else acc) := by
  rw [getWorktrees.parseLoop, if_pos (strings.HasPrefix_append _ _),
    strings.TrimPrefix_append]

theorem getWorktrees.parseLoop_head (h : GoString) (rest : List GoString) (cur : Worktree)
    (acc : List Worktree) :
    getWorktrees.parseLoop ((str "HEAD " ++ h) :: rest) cur acc =
      getWorktrees.parseLoop rest { cur with Head := h } acc := by
  have hw : strings.HasPrefix (str "HEAD " ++ h) (str "worktree ") = false :=
    strings.HasPrefix_cons_ne 72 119 (str "EAD " ++ h) (str "orktree ") (by decide)
  rw [getWorktrees.parseLoop, if_neg (by simp [hw]), if_pos (strings.HasPrefix_append _ _),
    strings.TrimPrefix_append]

theorem getWorktrees.parseLoop_branch (b : GoString) (rest : List GoString) (cur : Worktree)
    (acc : List Worktree) :
    getWorktrees.parseLoop ((str "branch refs/heads/" ++ b) :: rest) cur acc =
      getWorktrees.parseLoop rest { cur with Branch := b } acc := by
  have hw : strings.HasPrefix (str "branch refs/heads/" ++ b) (str "worktree ") = false :=
    strings.HasPrefix_cons_ne 98 119 (str "ranch refs/heads/" ++ b) (str "orktree ") (by decide)
  have hh : strings.HasPrefix (str "branch refs/heads/" ++ b) (str "HEAD ") = false :=
    strings.HasPrefix_cons_ne 98 72 (str "ranch refs/heads/" ++ b) (str "EAD ") (by decide)
  have hsplit : str "branch refs/heads/" ++ b = str "branch " ++ (str "refs/heads/" ++ b) := by
    have : str "branch refs/heads/" = str "branch " ++ str "refs/heads/" := by decide
    rw [this, List.append_assoc]
  rw [getWorktrees.parseLoop, if_neg (by simp [hw]), if_neg (by simp [hh]), hsplit,
    if_pos (strings.HasPrefix_append _ _), strings.TrimPrefix_append,
    strings.TrimPrefix_append]

theorem getWorktrees.parseLoop_blank (rest : List GoString) (cur : Worktree)
    (acc : List Worktree) :
    getWorktrees.parseLoop ([] :: rest) cur acc =
      if cur.Path ≠ [] then getWorktrees.parseLoop rest {} (acc ++ [cur])
      else getWorktrees.parseLoop rest cur acc := by
  rw [getWorktrees.parseLoop, if_neg (by decide), if_neg (by decide), if_neg (by decide)]
  by_cases h : cur.Path = []
  · simp [h]
  · simp [h]

theorem getWorktrees.parseLoop_record (r : PorcelainRecord) (hpath : r.Path ≠ [])
    (rest : List GoString) (cur : Worktree) (acc : List Worktree) :
    getWorktrees.parseLoop (r.lines ++ rest) cur acc =
      getWorktrees.parseLoop rest (if r.blank then {} else r.toWorktree)
        ((if cur.Path ≠ [] then acc ++ [cur] else acc) ++
          (if r.blank then [r.toWorktree] else [])) := by
  obtain ⟨path, head, branch, blank⟩ := r
  simp only at hpath
  cases branch <;> cases blank <;>
    simp [PorcelainRecord.lines, PorcelainRecord.toWorktree, getWorktrees.parseLoop_worktree,
      getWorktrees.parseLoop_head, getWorktrees.parseLoop_branch,
      getWorktrees.parseLoop_blank, hpath]

theorem getWorktrees.finish_parseLoop_records (rs : List PorcelainRecord)
    (hwf : ∀ r ∈ rs, r.wellFormed) (tail : List GoString) (htail : tail = [] ∨ tail = [[]]) :
    ∀ (cur : Worktree) (acc : List Worktree),
      getWorktrees.finish (getWorktrees.parseLoop (porcelainLines rs ++ tail) cur acc) =
        (if cur.Path ≠ [] then acc ++ [cur] else acc) ++ rs.map PorcelainRecord.toWorktree := by
  induction rs with
  | nil =>
    intro cur acc
    rcases htail with rfl | rfl
    · simp [porcelainLines, getWorktrees.parseLoop, getWorktrees.finish]
    · have hl : porcelainLines [] ++ [[]] = ([] : GoString) :: [] := rfl
      rw [hl, getWorktrees.parseLoop_blank]
      by_cases h : cur.Path = []
      · simp [getWorktrees.parseLoop, getWorktrees.finish, h]
      · simp [getWorktrees.parseLoop, getWorktrees.finish, h]
  | cons r rs ih =>
    intro cur acc
    have hr := hwf r (List.mem_cons_self _ _)
    have ih' := ih (fun x hx => hwf x (List.mem_cons_of_mem _ hx))
    rw [porcelainLines, List.append_assoc, getWorktrees.parseLoop_record r hr.1, ih']
    cases hb : r.blank
    · have : r.toWorktree.Path ≠ [] := hr.1
      simp [this]
    · simp

theorem porcelainLines_no_newline (rs : List PorcelainRecord) (hwf : ∀ r ∈ rs, r.wellFormed) :
    ∀ l ∈ porcelainLines rs, (10 : UInt8) ∉ l := by
  induction rs with
  | nil => intro l hl; simp [porcelainLines] at hl
  | cons r rs ih =>
    intro l hl
    obtain ⟨_, hp, hh, hb⟩ := hwf r (List.mem_cons_self _ _)
    have hw : (10 : UInt8) ∉ str "worktree " := by decide
    have hhd : (10 : UInt8) ∉ str "HEAD " := by decide
    have hbr : (10 : UInt8) ∉ str "branch refs/heads/" := by decide
    rw [porcelainLines, List.mem_append] at hl
    rcases hl with hl | hl
    · simp only [PorcelainRecord.lines, List.mem_append, List.mem_cons, List.mem_singleton,
        List.not_mem_nil, or_false] at hl
      rcases hl with ((rfl | rfl) | hl) | hl
      · simp [hw, hp]
      · simp [hhd, hh]
      · cases hbranch : r.Branch with
        | none => simp [hbranch] at hl
        | some b =>
          simp only [hbranch, List.mem_singleton] at hl
          subst hl
          simp [hbr, hb b hbranch]
      · split_ifs at hl
        · simp only [List.mem_singleton] at hl
          subst hl
          simp
        · simp at hl
    · exact ih (fun x hx => hwf x (List.mem_cons_of_mem _ hx)) l hl

theorem getWorktrees.parseLoop_paths (lines : List GoString) :
    ∀ (cur : Worktree) (acc : List Worktree), (∀ wt ∈ acc, wt.Path ≠ []) →
      ∀ wt ∈ getWorktrees.finish (getWorktrees.parseLoop lines cur acc), wt.Path ≠ [] := by
  induction lines with
  | nil =>
    intro cur acc hacc wt hwt
    simp only [getWorktrees.parseLoop, getWorktrees.finish] at hwt
    split_ifs at hwt with h
    · rcases List.mem_append.mp hwt with h' | h'
      · exact hacc wt h'
      · simp only [List.mem_singleton] at h'
        exact h' ▸ h
    · exact hacc wt hwt
  | cons line rest ih =>
    intro cur acc hacc
    have hpush : cur.Path ≠ [] → ∀ wt ∈ acc ++ [cur], wt.Path ≠ [] := by
      intro hc wt hwt
      rcases List.mem_append.mp hwt with h' | h'
      · exact hacc wt h'
      · simp only [List.mem_singleton] at h'
        exact h' ▸ hc
    rw [getWorktrees.parseLoop]
    split_ifs with h1 h2 h3 h4 h5
    · exact ih _ _ (hpush h2)
    · exact ih _ _ hacc
    · exact ih _ _ hacc
    · exact ih _ _ hacc
    · exact ih _ _ (hpush h5.2)
    · exact ih _ _ hacc

/-- C15. For every list of records with a non-empty path and no newline in the
path, the head and the branch, the porcelain parser of `getWorktrees`, applied
to the text that writes each record as `worktree <Path>`, `HEAD <Head>` and,
when there is a branch, `branch refs/heads/<Branch>`, records being followed by
a blank line or directly by the next record (the last line ending in a newline
or not), returns one worktree per record, in the same order, with the path, the
head and the branch of the record (the branch empty when absent). For every
output whatsoever, each worktree returned has a non-empty path. -/
theorem getWorktrees_parse_records (rs : List PorcelainRecord) (finalNewline : Bool)
    (hwf : ∀ r ∈ rs, r.wellFormed) :
    getWorktrees.parse (porcelainText rs finalNewline) = rs.map PorcelainRecord.toWorktree ∧
    (getWorktrees.parse (porcelainText rs finalNewline)).length = rs.length ∧
    (∀ (i : Nat) (r : PorcelainRecord), rs[i]? = some r →
      ∃ wt, (getWorktrees.parse (porcelainText rs finalNewline))[i]? = some wt ∧
        wt.Path = r.Path ∧ wt.Head = r.Head ∧ wt.Branch = r.Branch.getD []) ∧
    (∀ output, ∀ wt ∈ getWorktrees.parse output, wt.Path ≠ []) := by
  have hparse : ∀ output, getWorktrees.parse output =
      getWorktrees.finish (getWorktrees.parseLoop (strings.Split output 10) {} []) := by
    intro output
    rfl
  have hno := porcelainLines_no_newline rs hwf
  have hmain : getWorktrees.parse (porcelainText rs finalNewline) =
      rs.map PorcelainRecord.toWorktree := by
    rw [hparse]
    cases finalNewline
    · by_cases hne : porcelainLines rs = []
      · have h := getWorktrees.finish_parseLoop_records rs hwf [[]] (Or.inr rfl) {} []
        rw [hne] at h
        have hs : strings.Split (porcelainText rs false) 10 = [] ++ [[]] := by
          simp [porcelainText, hne, joinLines, strings.Split, strings.splitLoop]
        rw [hs, h]
        simp
      · have h := getWorktrees.finish_parseLoop_records rs hwf [] (Or.inl rfl) {} []
        have hs : strings.Split (porcelainText rs false) 10 = porcelainLines rs ++ [] := by
          simp [porcelainText, strings.Split_joinLines _ hne hno]
        rw [hs, h]
        simp
    · have h := getWorktrees.finish_parseLoop_records rs hwf [[]] (Or.inr rfl) {} []
      have hs : strings.Split (porcelainText rs true) 10 = porcelainLines rs ++ [[]] := by
        simp [porcelainText, strings.Split_unlines _ hno]
      rw [hs, h]
      simp
  refine ⟨hmain, by rw [hmain, List.length_map], ?_, ?_⟩
  · intro i r hi
    rw [hmain, List.getElem?_map, hi]
    exact ⟨r.toWorktree, rfl, rfl, rfl, rfl⟩
  · intro output
    rw [hparse]
    exact getWorktrees.parseLoop_paths _ {} [] (by simp)

theorem getWorktrees_parse_records_witness :
    getWorktrees.parse (porcelainText exampleRecords true) =
      exampleRecords.map PorcelainRecord.toWorktree ∧
    (getWorktrees.parse (porcelainText exampleRecords true)).length = exampleRecords.length ∧
    (∀ (i : Nat) (r : PorcelainRecord), exampleRecords[i]? = some r →
      ∃ wt, (getWorktrees.parse (porcelainText exampleRecords true))[i]? = some wt ∧
        wt.Path = r.Path ∧ wt.Head = r.Head ∧ wt.Branch = r.Branch.getD []) ∧
    (∀ output, ∀ wt ∈ getWorktrees.parse output, wt.Path ≠ []) :=
  getWorktrees_parse_records exampleRecords true (by
    intro r hr
    simp only [exampleRecords, List.mem_cons, List.mem_singleton, List.not_mem_nil,
      or_false] at hr
    rcases hr with rfl | rfl
    · exact ⟨by decide, by decide, by decide, fun b hb => by cases hb; decide⟩
    · exact ⟨by decide, by decide, by decide, fun b hb => by cases hb; decide⟩)

/-! ## C16: typing in search mode -/

theorem updateSearch_backspace (u : Unicode) (m : model) :
    m.updateSearch u (str "backspace") =
      if m.searchTerm.length > 0 then
        some ⟨{ m with
                searchTerm := m.searchTerm.take (m.searchTerm.length - 1),
                filtered := filterWorktrees u m.worktrees
                  (m.searchTerm.take (m.searchTerm.length - 1)) }, .nil, []⟩
      else some ⟨m, .nil, []⟩ := rfl

theorem updateSearch_default (u : Unicode) (m : model) (k : GoString)
    (h1 : k ≠ str "esc") (h2 : k ≠ str "ctrl+c") (h3 : k ≠ str "enter")
    (h4 : k ≠ str "backspace") :
    m.updateSearch u k =
      if k.length = 1 then
        some ⟨{ m with searchTerm := m.searchTerm ++ k,
                       filtered := filterWorktrees u m.worktrees (m.searchTerm ++ k) }, .nil, []⟩
      else some ⟨m, .nil, []⟩ := by
  unfold model.updateSearch
  rw [if_neg (by simp [h1, h2]), if_neg h3, if_neg h4]

theorem length_one_ne (k : GoString) (s : String) (hk : k.length = 1)
    (hs : (str s).length ≠ 1) : k ≠ str s := by
  intro h
  rw [h] at hk
  exact hs hk

/-- C16 (as amended). In search mode without the delete overlay: a key whose
string is a single byte is appended to the search term and the filtered list is
recomputed from the new term; `backspace` on a non-empty term removes the last
byte of the term and recomputes the filtered list; `backspace` on an empty term
and every key whose string is not a single byte, other than `esc`, `ctrl+c`,
`enter` and `backspace`, return the model unchanged. In all these cases no
outside call is made and `worktrees`, `cursor` and `inputMode` are unchanged. -/
theorem search_input (u : Unicode) (w : World) (m : model) (k : GoString)
    (hm : m.inputMode = modeSearch) (hc : m.confirmDelete = false) :
    (k.length = 1 →
      m.Update u w (.KeyMsg k) =
        some ⟨{ m with searchTerm := m.searchTerm ++ k,
                       filtered := filterWorktrees u m.worktrees (m.searchTerm ++ k) },
          .nil, []⟩) ∧
    (m.searchTerm ≠ [] →
      m.Update u w (.KeyMsg (str "backspace")) =
        some ⟨{ m with searchTerm := m.searchTerm.dropLast,
                       filtered := filterWorktrees u m.worktrees m.searchTerm.dropLast },
          .nil, []⟩) ∧
    (m.searchTerm = [] →
      m.Update u w (.KeyMsg (str "backspace")) = some ⟨m, .nil, []⟩) ∧
    (k.length ≠ 1 → k ≠ str "esc" → k ≠ str "ctrl+c" → k ≠ str "enter" →
      k ≠ str "backspace" → m.Update u w (.KeyMsg k) = some ⟨m, .nil, []⟩) ∧
    ((k.length = 1 ∨ k = str "backspace" ∨
        (k ≠ str "esc" ∧ k ≠ str "ctrl+c" ∧ k ≠ str "enter")) →
      ∃ r, m.Update u w (.KeyMsg k) = some r ∧ r.m.worktrees = m.worktrees ∧
        r.m.cursor = m.cursor ∧ r.m.inputMode = m.inputMode ∧ r.calls = [] ∧ r.cmd = .nil) := by
  have hupd : ∀ k, m.Update u w (.KeyMsg k) = m.updateSearch u k :=
    fun k => Update_key_search u w m k hm hc
  have hone : k.length = 1 →
      m.updateSearch u k =
        some ⟨{ m with searchTerm := m.searchTerm ++ k,
                       filtered := filterWorktrees u m.worktrees (m.searchTerm ++ k) },
          .nil, []⟩ := by
    intro hk
    rw [updateSearch_default u m k (length_one_ne k _ hk (by decide))
      (length_one_ne k _ hk (by decide)) (length_one_ne k _ hk (by decide))
      (length_one_ne k _ hk (by decide)), if_pos hk]
  have hback : ∃ r, m.updateSearch u (str "backspace") = some r ∧ r.m.worktrees = m.worktrees ∧
      r.m.cursor = m.cursor ∧ r.m.inputMode = m.inputMode ∧ r.calls = [] ∧ r.cmd = .nil := by
    rw [updateSearch_backspace]
    split_ifs <;> exact ⟨_, rfl, rfl, rfl, rfl, rfl, rfl⟩
  refine ⟨fun hk => by rw [hupd, hone hk], ?_, ?_, ?_, ?_⟩
  · intro hne
    have hpos : m.searchTerm.length > 0 := List.length_pos.mpr hne
    rw [hupd, updateSearch_backspace, if_pos hpos, List.dropLast_eq_take]
  · intro hnil
    rw [hupd, updateSearch_backspace, if_neg (by simp [hnil])]
  · intro hk h1 h2 h3 h4
    rw [hupd, updateSearch_default u m k h1 h2 h3 h4, if_neg hk]
  · intro hcase
    rw [hupd]
    by_cases hk : k.length = 1
    · rw [hone hk]; exact ⟨_, rfl, rfl, rfl, rfl, rfl, rfl⟩
    · by_cases hb : k = str "backspace"
      · rw [hb]; exact hback
      · rcases hcase with h | h | ⟨h1, h2, h3⟩
        · exact absurd h hk
        · exact absurd h hb
        · rw [updateSearch_default u m k h1 h2 h3 hb, if_neg hk]
          exact ⟨_, rfl, rfl, rfl, rfl, rfl, rfl⟩

theorem search_input_witness :
    ((str "f").length = 1 →
      searchingModel.Update Unicode.ascii world0 (.KeyMsg (str "f")) =
        some ⟨{ searchingModel with
                searchTerm := searchingModel.searchTerm ++ str "f",
                filtered := filterWorktrees Unicode.ascii searchingModel.worktrees
                  (searchingModel.searchTerm ++ str "f") }, .nil, []⟩) ∧
    (searchingModel.searchTerm ≠ [] →
      searchingModel.Update Unicode.ascii world0 (.KeyMsg (str "backspace")) =
        some ⟨{ searchingModel with
                searchTerm := searchingModel.searchTerm.dropLast,
                filtered := filterWorktrees Unicode.ascii searchingModel.worktrees
                  searchingModel.searchTerm.dropLast }, .nil, []⟩) ∧
    (searchingModel.searchTerm = [] →
      searchingModel.Update Unicode.ascii world0 (.KeyMsg (str "backspace")) =
        some ⟨searchingModel, .nil, []⟩) ∧
    ((str "f").length ≠ 1 → str "f" ≠ str "esc" → str "f" ≠ str "ctrl+c" →
      str "f" ≠ str "enter" → str "f" ≠ str "backspace" →
      searchingModel.Update Unicode.ascii world0 (.KeyMsg (str "f")) =
        some ⟨searchingModel, .nil, []⟩) ∧
    (((str "f").length = 1 ∨ str "f" = str "backspace" ∨
        (str "f" ≠ str "esc" ∧ str "f" ≠ str "ctrl+c" ∧ str "f" ≠ str "enter")) →
      ∃ r, searchingModel.Update Unicode.ascii world0 (.KeyMsg (str "f")) = some r ∧
        r.m.worktrees = searchingModel.worktrees ∧ r.m.cursor = searchingModel.cursor ∧
        r.m.inputMode = searchingModel.inputMode ∧ r.calls = [] ∧ r.cmd = .nil) :=
  search_input Unicode.ascii world0 searchingModel (str "f") rfl rfl

/-- C16, counterexample. In search mode without the overlay: the key `ctrl+c`,
a key of several characters that is neither `esc` nor `enter`, returns to
normal mode with the term cleared; the key `é`, a single character of two
bytes, is not appended to the term; and `backspace` on the term `é` leaves its
first byte, not the empty term. -/
theorem search_input_ctrl_c_and_wide_keys :
    searchingModel.inputMode = modeSearch ∧ searchingModel.confirmDelete = false ∧
    (∀ (u : Unicode) (w : World),
      searchingModel.Update u w (.KeyMsg (str "ctrl+c")) = some ⟨exampleModel, .nil, []⟩) ∧
    exampleModel ≠ searchingModel ∧
    (∀ (u : Unicode) (w : World),
      searchingModel.Update u w (.KeyMsg (str "é")) = some ⟨searchingModel, .nil, []⟩) ∧
    searchingModel.searchTerm ++ str "é" ≠ searchingModel.searchTerm ∧
    (∀ (u : Unicode) (w : World),
      (accentModel.Update u w (.KeyMsg (str "backspace"))).map (fun r => r.m.searchTerm) =
        some [195]) :=
  ⟨rfl, rfl, fun _ _ => rfl, by decide, fun _ _ => rfl, by decide, fun _ _ => rfl⟩

/-! ## C17: the viewport of `View` -/

theorem index_of_lt {α : Type} (s : List α) (i : Int) (h0 : 0 ≤ i) (h1 : i < (s.length : Int)) :
    ∃ a, index s i = some a := by
  have hlt : i.toNat < s.length := by omega
  exact ⟨s[i.toNat], by simp [index, h0, List.getElem?_eq_getElem hlt]⟩

theorem index_of_neg {α : Type} (s : List α) (i : Int) (h : i < 0) : index s i = none := by
  simp [index, h]

theorem wrap64_range (x : Int) : minInt64 ≤ wrap64 x ∧ wrap64 x ≤ maxInt64 := by
  unfold wrap64 minInt64 maxInt64
  omega

theorem wrap64_of_range (x : Int) (h0 : minInt64 ≤ x) (h1 : x ≤ maxInt64) : wrap64 x = x := by
  unfold wrap64
  unfold minInt64 at h0
  unfold maxInt64 at h1
  omega

theorem model.viewportHeight_range (m : model) :
    5 ≤ m.viewportHeight ∧ m.viewportHeight ≤ maxInt64 := by
  have hr := wrap64_range (m.height - 8)
  unfold model.viewportHeight
  unfold maxInt64 at *
  split_ifs <;> omega

theorem model.viewportHeight_eq (m : model) (h0 : minInt64 + 8 ≤ m.height)
    (h1 : m.height ≤ maxInt64) : m.viewportHeight = max 5 (m.height - 8) := by
  unfold minInt64 at h0
  unfold maxInt64 at h1
  have hw : wrap64 (m.height - 8) = m.height - 8 :=
    wrap64_of_range _ (by unfold minInt64; omega) (by unfold maxInt64; omega)
  unfold model.viewportHeight
  rw [hw]
  split_ifs <;> omega

theorem model.viewportHeight_wrapped (m : model) (h0 : minInt64 ≤ m.height)
    (h1 : m.height < minInt64 + 8) :
    m.viewportHeight = m.height - 8 + 18446744073709551616 := by
  unfold minInt64 at h0 h1
  unfold model.viewportHeight wrap64
  split_ifs <;> omega

/-- For a 64-bit cursor, the value the model gives `m.cursor - viewportHeight + 1`
is the one of the two `int` operations, each wrapping around. -/
theorem model.adjustedScrollOffset_wrap64 (m : model) (h0 : minInt64 ≤ m.cursor)
    (h1 : m.cursor ≤ maxInt64)
    (hdown : m.cursor ≥ wrap64 (m.scrollOffset + m.viewportHeight)) :
    m.adjustedScrollOffset = wrap64 (wrap64 (m.cursor - m.viewportHeight) + 1) := by
  obtain ⟨hv5, hvmax⟩ := m.viewportHeight_range
  unfold model.adjustedScrollOffset
  rw [if_pos hdown]
  generalize m.viewportHeight = vh at *
  unfold wrap64
  unfold minInt64 at *
  unfold maxInt64 at *
  split_ifs <;> omega

theorem model.adjustedScrollOffset_spec (m : model) (h0 : 0 ≤ m.cursor)
    (h1 : m.cursor < maxInt64)
    (hs0 : minInt64 ≤ m.scrollOffset) (hs1 : m.scrollOffset ≤ maxInt64) :
    m.adjustedScrollOffset ≤ m.cursor ∧
    m.cursor < m.adjustedScrollOffset + m.viewportHeight ∧
    wrap64 (m.adjustedScrollOffset + m.viewportHeight) =
      m.adjustedScrollOffset + m.viewportHeight ∧
    minInt64 ≤ m.adjustedScrollOffset ∧
    (0 ≤ m.scrollOffset → m.scrollOffset + m.viewportHeight ≤ maxInt64 →
      0 ≤ m.adjustedScrollOffset) := by
  obtain ⟨hv5, hvmax⟩ := m.viewportHeight_range
  unfold model.adjustedScrollOffset
  generalize m.viewportHeight = vh at *
  unfold wrap64
  unfold minInt64 at *
  unfold maxInt64 at *
  split_ifs <;> refine ⟨?_, ?_, ?_, ?_, ?_⟩ <;> omega

theorem model.adjustedScrollOffset_of_zero (m : model) (hso : m.scrollOffset = 0)
    (h0 : 0 ≤ m.cursor) : 0 ≤ m.adjustedScrollOffset := by
  obtain ⟨hv5, hvmax⟩ := m.viewportHeight_range
  unfold model.adjustedScrollOffset
  rw [hso]
  generalize m.viewportHeight = vh at *
  unfold wrap64
  unfold minInt64
  unfold maxInt64 at hvmax
  split_ifs <;> omega

theorem model.viewLoop_spec (m : model) (n : Nat) :
    ∀ i : Int, 0 ≤ i → (n ≠ 0 → i + n ≤ (m.filtered.length : Int)) →
      ∃ rows, m.viewLoop n i = some rows ∧ rows.length = n ∧
        ∀ k : Nat, k < n → ∃ wt, index m.filtered (i + k) = some wt ∧
          rows[k]? = some (m.viewRow (i + k) wt) := by
  induction n with
  | zero => intro i _ _; exact ⟨[], rfl, rfl, fun k hk => absurd hk (by omega)⟩
  | succ n ih =>
    intro i h0 hlen
    have hlen' := hlen (by omega)
    obtain ⟨wt, hwt⟩ := index_of_lt m.filtered i h0 (by push_cast at hlen'; omega)
    obtain ⟨rows, hrows, hlength, hk⟩ := ih (i + 1) (by omega)
      (fun _ => by push_cast at hlen'; omega)
    refine ⟨m.viewRow i wt :: rows, by simp [model.viewLoop, hwt, hrows], by simp [hlength], ?_⟩
    intro k hklt
    cases k with
    | zero => exact ⟨wt, by simpa using hwt, by simp⟩
    | succ k =>
      obtain ⟨wt', hwt', hrow⟩ := hk k (by omega)
      have hidx : i + ((k + 1 : Nat) : Int) = i + 1 + (k : Int) := by push_cast; omega
      rw [hidx]
      exact ⟨wt', hwt', by simpa using hrow⟩

theorem model.viewRows_spec (m : model) (h0 : 0 ≤ m.adjustedScrollOffset) :
    ∃ rows, m.viewRows = some rows ∧
      (rows.length : Int) ≤ m.viewportHeight ∧
      (∀ k : Nat, k < rows.length → ∃ wt,
        index m.filtered (m.adjustedScrollOffset + k) = some wt ∧
        rows[k]? = some (m.viewRow (m.adjustedScrollOffset + k) wt)) ∧
      (m.adjustedScrollOffset ≤ m.cursor → m.cursor < (m.filtered.length : Int) →
        m.cursor < wrap64 (m.adjustedScrollOffset + m.viewportHeight) →
        ∃ row ∈ rows, row.index = m.cursor ∧ row.cursor = true) := by
  obtain ⟨hv5, hvmax⟩ := m.viewportHeight_range
  have hw : wrap64 (m.adjustedScrollOffset + m.viewportHeight) ≤
      m.adjustedScrollOffset + m.viewportHeight := by
    unfold wrap64
    omega
  obtain ⟨rows, hrows, hlength, hk⟩ := m.viewLoop_spec
    (min (m.filtered.length : Int) (wrap64 (m.adjustedScrollOffset + m.viewportHeight)) -
      m.adjustedScrollOffset).toNat m.adjustedScrollOffset h0 (by omega)
  refine ⟨rows, hrows, by omega, fun k hklt => hk k (by omega), ?_⟩
  intro hle hlt hin
  obtain ⟨wt, _, hrow⟩ := hk (m.cursor - m.adjustedScrollOffset).toNat (by omega)
  have hidx : m.adjustedScrollOffset + ((m.cursor - m.adjustedScrollOffset).toNat : Int) =
      m.cursor := by omega
  rw [hidx] at hrow
  exact ⟨m.viewRow m.cursor wt, List.mem_iff_getElem?.mpr ⟨_, hrow⟩, rfl, by simp [model.viewRow]⟩

theorem model.viewRows_of_neg (m : model) (hne : m.filtered ≠ [])
    (hneg : m.adjustedScrollOffset < 0) (hlow : minInt64 ≤ m.adjustedScrollOffset) :
    m.viewRows = none := by
  obtain ⟨hv5, hvmax⟩ := m.viewportHeight_range
  have hlen : 0 < m.filtered.length := List.length_pos.mpr hne
  have hw : wrap64 (m.adjustedScrollOffset + m.viewportHeight) =
      m.adjustedScrollOffset + m.viewportHeight :=
    wrap64_of_range _ (by unfold minInt64 at *; omega) (by unfold maxInt64 at *; omega)
  unfold model.viewRows
  dsimp only
  rw [hw]
  obtain ⟨n, hn⟩ : ∃ n, (min (m.filtered.length : Int)
      (m.adjustedScrollOffset + m.viewportHeight) - m.adjustedScrollOffset).toNat = n + 1 :=
    ⟨_, (Nat.succ_pred_eq_of_pos (by omega)).symm⟩
  rw [hn, model.viewLoop, index_of_neg _ _ hneg]

theorem model.View_list (m : model) (hne : m.filtered ≠ []) (herr : m.err = none)
    (hprompt : ¬ (m.confirmDelete = true ∧ m.deleteTarget ≠ none)) :
    m.View = m.viewRows.map (fun rows =>
      .list (str "Git Worktrees - " ++ m.repoPath) m.viewModeLine rows m.statusMessage
        m.viewHelp) := by
  have hlen : m.filtered.length ≠ 0 := fun h => hne (List.length_eq_zero.mp h)
  unfold model.View
  rw [herr]
  dsimp only
  split
  · next hc ht => exact absurd ⟨hc, by simp [ht]⟩ hprompt
  · rw [if_neg hlen]

/-- C17 (as amended). For every model with a non-empty filtered list of a
length an `int` can hold, `0 <= cursor < len(filtered)`, and a height and an
incoming scroll offset that are 64-bit ints: `viewportHeight` is
`max(5, height - 8)` when `height >= minInt64 + 8`, and `height - 8 + 2^64`
(the subtraction wraps around) when the height is less; it is between 5 and
`maxInt64`. The scroll offset recomputed by `View` satisfies
`scrollOffset <= cursor < scrollOffset + viewportHeight`, the sum not wrapping
around. When the incoming scroll offset is not negative and adding
`viewportHeight` to it does not pass `maxInt64` (so for the offset 0), the
recomputed one is not negative. When the recomputed offset is not negative,
the row loop runs without a panic and writes at most `viewportHeight` rows,
consecutive from the recomputed offset, and the row of the cursor index is one
of them, carrying the cursor marker; with no error recorded and the delete
prompt not shown, these rows are the rows of the frame `View` returns. When
the recomputed offset is negative, the first read of the row loop panics. -/
theorem viewport_keeps_cursor (m : model) (hne : m.filtered ≠ []) (h0 : 0 ≤ m.cursor)
    (h1 : m.cursor < (m.filtered.length : Int)) (hlen : (m.filtered.length : Int) ≤ maxInt64)
    (hh : minInt64 ≤ m.height ∧ m.height ≤ maxInt64)
    (hs : minInt64 ≤ m.scrollOffset ∧ m.scrollOffset ≤ maxInt64) :
    (minInt64 + 8 ≤ m.height → m.viewportHeight = max 5 (m.height - 8)) ∧
    (m.height < minInt64 + 8 → m.viewportHeight = m.height - 8 + 18446744073709551616) ∧
    5 ≤ m.viewportHeight ∧ m.viewportHeight ≤ maxInt64 ∧
    m.adjustedScrollOffset ≤ m.cursor ∧
    m.cursor < m.adjustedScrollOffset + m.viewportHeight ∧
    wrap64 (m.adjustedScrollOffset + m.viewportHeight) =
      m.adjustedScrollOffset + m.viewportHeight ∧
    (0 ≤ m.scrollOffset → m.scrollOffset + m.viewportHeight ≤ maxInt64 →
      0 ≤ m.adjustedScrollOffset) ∧
    (0 ≤ m.adjustedScrollOffset →
      ∃ rows, m.viewRows = some rows ∧
        (rows.length : Int) ≤ m.viewportHeight ∧
        (∀ k : Nat, k < rows.length → ∃ wt,
          index m.filtered (m.adjustedScrollOffset + k) = some wt ∧
          rows[k]? = some (m.viewRow (m.adjustedScrollOffset + k) wt)) ∧
        (∃ row ∈ rows, row.index = m.cursor ∧ row.cursor = true) ∧
        (m.err = none → ¬ (m.confirmDelete = true ∧ m.deleteTarget ≠ none) →
          m.View = some (.list (str "Git Worktrees - " ++ m.repoPath) m.viewModeLine rows
            m.statusMessage m.viewHelp))) ∧
    (m.adjustedScrollOffset < 0 →
      index m.filtered m.adjustedScrollOffset = none ∧ m.viewRows = none ∧
      (m.err = none → ¬ (m.confirmDelete = true ∧ m.deleteTarget ≠ none) → m.View = none)) := by
  obtain ⟨hle, hlt, hwrap, hlow, hpos⟩ :=
    m.adjustedScrollOffset_spec h0 (by omega) hs.1 hs.2
  refine ⟨fun h => m.viewportHeight_eq h hh.2, fun h => m.viewportHeight_wrapped hh.1 h,
    m.viewportHeight_range.1, m.viewportHeight_range.2, hle, hlt, hwrap, hpos, ?_, ?_⟩
  · intro hnonneg
    obtain ⟨rows, hrows, hcount, hk, hcur⟩ := m.viewRows_spec hnonneg
    refine ⟨rows, hrows, hcount, hk, hcur hle h1 (by rw [hwrap]; exact hlt), ?_⟩
    intro herr hprompt
    rw [m.View_list hne herr hprompt, hrows]
    rfl
  · intro hneg
    have hnone := m.viewRows_of_neg hne hneg hlow
    refine ⟨index_of_neg _ _ hneg, hnone, ?_⟩
    intro herr hprompt
    rw [m.View_list hne herr hprompt, hnone]
    rfl

theorem viewport_keeps_cursor_witness :
    (minInt64 + 8 ≤ windowModel.height →
      windowModel.viewportHeight = max 5 (windowModel.height - 8)) ∧
    (windowModel.height < minInt64 + 8 →
      windowModel.viewportHeight = windowModel.height - 8 + 18446744073709551616) ∧
    5 ≤ windowModel.viewportHeight ∧ windowModel.viewportHeight ≤ maxInt64 ∧
    windowModel.adjustedScrollOffset ≤ windowModel.cursor ∧
    windowModel.cursor < windowModel.adjustedScrollOffset + windowModel.viewportHeight ∧
    wrap64 (windowModel.adjustedScrollOffset + windowModel.viewportHeight) =
      windowModel.adjustedScrollOffset + windowModel.viewportHeight ∧
    (0 ≤ windowModel.scrollOffset →
      windowModel.scrollOffset + windowModel.viewportHeight ≤ maxInt64 →
      0 ≤ windowModel.adjustedScrollOffset) ∧
    (0 ≤ windowModel.adjustedScrollOffset →
      ∃ rows, windowModel.viewRows = some rows ∧
        (rows.length : Int) ≤ windowModel.viewportHeight ∧
        (∀ k : Nat, k < rows.length → ∃ wt,
          index windowModel.filtered (windowModel.adjustedScrollOffset + k) = some wt ∧
          rows[k]? = some (windowModel.viewRow (windowModel.adjustedScrollOffset + k) wt)) ∧
        (∃ row ∈ rows, row.index = windowModel.cursor ∧ row.cursor = true) ∧
        (windowModel.err = none →
          ¬ (windowModel.confirmDelete = true ∧ windowModel.deleteTarget ≠ none) →
          windowModel.View =
            some (.list (str "Git Worktrees - " ++ windowModel.repoPath)
              windowModel.viewModeLine rows windowModel.statusMessage
              windowModel.viewHelp))) ∧
    (windowModel.adjustedScrollOffset < 0 →
      index windowModel.filtered windowModel.adjustedScrollOffset = none ∧
      windowModel.viewRows = none ∧
      (windowModel.err = none →
        ¬ (windowModel.confirmDelete = true ∧ windowModel.deleteTarget ≠ none) →
        windowModel.View = none)) :=
  viewport_keeps_cursor windowModel (by decide) (by decide) (by decide) (by decide)
    (by decide) (by decide)

/-- The frame of the scenario model with the cursor on `feature/x` in a window
of height 10: both rows, the second with the cursor marker. -/
theorem View_windowModel :
    windowModel.View =
      some (.list (str "Git Worktrees - /repo") (str "\n")
        [{ index := 0, cursor := false, branch := str "main", current := false,
           dirty := false, commitMsg := [] },
         { index := 1, cursor := true, branch := str "feature/x", current := false,
           dirty := true, commitMsg := str "fix bug" }]
        [] (str "[n]ew  [d]elete  [enter] switch  [/] search  [r]efresh  [q]uit")) := by
  decide

/-- C17, counterexample. From the initial model with six worktrees, a
window-size message of height `minInt64` and five times `down` lead (for every
`Unicode`) to a reachable model with the cursor on row 5 of 6, scroll offset 0.
There `height - 8` wraps around: `viewportHeight` is 2^63 - 8 and not
`max(5, height - 8) = 5`, the recomputed scroll offset is 0, so
`cursor < scrollOffset + max(5, height - 8)` fails, and `View` writes six rows,
more than `max(5, height - 8)`. -/
theorem viewport_height_wraps :
    (∀ u : Unicode,
      sixModel.run u ((world0, Msg.WindowSizeMsg 80 minInt64) ::
        keys world0 ["down", "down", "down", "down", "down"]) = some tallModel) ∧
    (∀ u : Unicode, Reachable u tallModel) ∧
    tallModel.filtered ≠ [] ∧ 0 ≤ tallModel.cursor ∧
    tallModel.cursor < (tallModel.filtered.length : Int) ∧
    tallModel.scrollOffset = 0 ∧
    max 5 (tallModel.height - 8) = 5 ∧
    tallModel.viewportHeight = 9223372036854775800 ∧
    tallModel.adjustedScrollOffset = 0 ∧
    ¬ (tallModel.cursor < tallModel.adjustedScrollOffset + max 5 (tallModel.height - 8)) ∧
    ∃ rows, tallModel.viewRows = some rows ∧ rows.length = 6 ∧
      ¬ ((rows.length : Int) ≤ max 5 (tallModel.height - 8)) ∧
      tallModel.View = some (.list (str "Git Worktrees - /repo") (str "\n") rows []
        (str "[n]ew  [d]elete  [enter] switch  [/] search  [r]efresh  [q]uit")) := by
  have hrun : ∀ u : Unicode,
      sixModel.run u ((world0, Msg.WindowSizeMsg 80 minInt64) ::
        keys world0 ["down", "down", "down", "down", "down"]) = some tallModel :=
    fun u => rfl
  refine ⟨hrun, fun u => reachable_run u _ _ _ (Reachable.init _ _ _) (hrun u),
    by decide, by decide, by decide, rfl, by decide, by decide, by decide, by decide,
    tallModel.viewRows.getD [], by decide, by decide, by decide, by decide⟩

/-- The scroll offsets left out above. With the two worktrees of the scenario
and the cursor on row 0, the incoming scroll offset `maxInt64` makes the sum
`m.scrollOffset+viewportHeight` wrap around to a negative number, the
recomputed offset is -4 and the read `m.filtered[-4]` panics; so does the
incoming offset -10. -/
theorem viewRows_panic_examples :
    farScrollModel.viewportHeight = 5 ∧
    wrap64 (farScrollModel.scrollOffset + farScrollModel.viewportHeight) = minInt64 + 4 ∧
    farScrollModel.adjustedScrollOffset = -4 ∧
    farScrollModel.viewRows = none ∧ farScrollModel.View = none ∧
    ({ exampleModel with scrollOffset := -10 } : model).adjustedScrollOffset = -4 ∧
    ({ exampleModel with scrollOffset := -10 } : model).View = none := by
  decide

/-! ## C18: the last-commit line -/

theorem strings.Split_logLine (hash subject date author : GoString)
    (h1 : 124 ∉ hash) (h2 : 124 ∉ subject) (h3 : 124 ∉ date) (h4 : 124 ∉ author) :
    strings.Split (logLine hash subject date author) 124 = [hash, subject, date, author] := by
  have hbar : str "|" = [124] := by decide
  have hform : logLine hash subject date author =
      hash ++ 124 :: (subject ++ 124 :: (date ++ 124 :: author)) := by
    simp [logLine, hbar]
  rw [strings.Split, hform, strings.splitLoop_append_sep, strings.splitLoop_append_sep,
    strings.splitLoop_append_sep, strings.splitLoop_no_sep 124 hash [] h1,
    strings.splitLoop_no_sep 124 subject [] h2, strings.splitLoop_no_sep 124 date [] h3,
    strings.splitLoop_no_sep 124 author [] h4]
  rfl

/-- The last-commit line without `|` inside its fields: for a hash of at least
7 bytes the parser keeps the first 7 bytes of the hash, the subject and the
author, and the date when `time.Parse` accepts it. -/
theorem getWorktrees.parseLog_of_no_bar (parseTime : GoString → Option Time) (wt : Worktree)
    (hash subject date author : GoString) (hlen : 7 ≤ hash.length)
    (h1 : 124 ∉ hash) (h2 : 124 ∉ subject) (h3 : 124 ∉ date) (h4 : 124 ∉ author) :
    getWorktrees.parseLog parseTime wt (logLine hash subject date author) =
      some { wt with
        LastCommit :=
          { Hash := hash.take 7
            Message := subject
            Date := (parseTime date).getD wt.LastCommit.Date
            Author := author } } := by
  have hpos : (logLine hash subject date author).length > 0 := by
    simp only [logLine, List.length_append]
    omega
  unfold getWorktrees.parseLog
  rw [if_pos hpos]
  simp only [strings.Split_logLine hash subject date author h1 h2 h3 h4]
  have hnot : ¬ hash.length < 7 := by omega
  cases hp : parseTime date <;> simp [hnot, hp]

/-- C18, the failing input. For the commit subject `fix a|b` the line printed
by `git log` has five fields when cut at `|`: whatever `time.Parse` does, the
parser stores the subject `fix a` instead of `fix a|b` and the author date
instead of the author `Ann`; and when `time.Parse` rejects `b`, as it does, the
date stays zero although the author date is well formed. -/
theorem getWorktrees_parseLog_subject_with_bar :
    (∀ (parseTime : GoString → Option Time) (wt : Worktree),
      (getWorktrees.parseLog parseTime wt
          (logLine (str "4b825dc642cb6eb9a060e54bf8d69288fbee4904") (str "fix a|b")
            (str "2024-01-02 03:04:05 +0000") (str "Ann"))).map
        (fun w => (w.LastCommit.Hash, w.LastCommit.Message, w.LastCommit.Author)) =
      some (str "4b825dc", str "fix a", str "2024-01-02 03:04:05 +0000")) ∧
    str "fix a" ≠ str "fix a|b" ∧ str "2024-01-02 03:04:05 +0000" ≠ str "Ann" ∧
    (∀ (parseTime : GoString → Option Time), parseTime (str "b") = none →
      (getWorktrees.parseLog parseTime {}
          (logLine (str "4b825dc642cb6eb9a060e54bf8d69288fbee4904") (str "fix a|b")
            (str "2024-01-02 03:04:05 +0000") (str "Ann"))).map
        (fun w => w.LastCommit.Date) = some 0) := by
  have hsplit : strings.Split
      (logLine (str "4b825dc642cb6eb9a060e54bf8d69288fbee4904") (str "fix a|b")
        (str "2024-01-02 03:04:05 +0000") (str "Ann")) 124 =
      [str "4b825dc642cb6eb9a060e54bf8d69288fbee4904", str "fix a", str "b",
        str "2024-01-02 03:04:05 +0000", str "Ann"] := by decide
  have hpos : (logLine (str "4b825dc642cb6eb9a060e54bf8d69288fbee4904") (str "fix a|b")
      (str "2024-01-02 03:04:05 +0000") (str "Ann")).length > 0 := by decide
  have hlen : ¬ (str "4b825dc642cb6eb9a060e54bf8d69288fbee4904").length < 7 := by decide
  have htake : (str "4b825dc642cb6eb9a060e54bf8d69288fbee4904").take 7 = str "4b825dc" := by
    decide
  refine ⟨?_, by decide, by decide, ?_⟩
  · intro parseTime wt
    unfold getWorktrees.parseLog
    rw [if_pos hpos]
    simp only [hsplit]
    simp [hlen, htake]
  · intro parseTime hb
    unfold getWorktrees.parseLog
    rw [if_pos hpos]
    simp only [hsplit]
    simp [hlen, hb]

/-! ## C19: what `ensureGitignoreEntry` writes -/

theorem ensureGitignoreEntry.body_eq_none (u : Unicode) (content entry : GoString) :
    ensureGitignoreEntry.body u content entry = none ↔
      ∃ line ∈ strings.Split content 10,
        strings.TrimSpace u line = entry ∨
        strings.TrimSpace u line = strings.TrimRight entry 47 := by
  unfold ensureGitignoreEntry.body
  simp only []
  split_ifs with hany
  · simp only [true_iff]
    rw [List.any_eq_true] at hany
    obtain ⟨line, hmem, hline⟩ := hany
    exact ⟨line, hmem, by simpa using hline⟩
  · simp only [false_iff]
    rintro ⟨line, hmem, hline⟩
    apply hany
    rw [List.any_eq_true]
    exact ⟨line, hmem, by simpa using hline⟩

theorem ensureGitignoreEntry.body_some (u : Unicode) (content entry c' : GoString)
    (h : ensureGitignoreEntry.body u content entry = some c') :
    ∃ mid, c' = content ++ mid ++ entry ++ str "\n" ∧
      (mid = [] ∨ mid = str "\n" ∨ mid = str "\n# Git worktrees\n" ∨
        mid = str "\n\n# Git worktrees\n" ∨ mid = str "# Git worktrees\n") ∧
      (str "# Git worktrees" <:+: mid →
        ∀ line ∈ strings.Split content 10, ¬ str "# Git worktrees" <:+: line) := by
  have hcat : str "\n" ++ str "\n# Git worktrees\n" = str "\n\n# Git worktrees\n" := by decide
  have hsub : str "Git worktrees" <:+: str "# Git worktrees" := by decide
  have hno : ∀ lines : List GoString,
      (!lines.any (fun line => strings.Contains line (str "Git worktrees"))) = true →
      ∀ line ∈ lines, ¬ str "# Git worktrees" <:+: line := by
    intro lines hl line hmem hin
    have hcontains : strings.Contains line (str "Git worktrees") = true :=
      (strings.Contains_iff_infix _ _).mpr (hsub.trans hin)
    have hany : lines.any (fun line => strings.Contains line (str "Git worktrees")) = true :=
      List.any_eq_true.mpr ⟨line, hmem, hcontains⟩
    simp [hany] at hl
  unfold ensureGitignoreEntry.body at h
  simp only [] at h
  split_ifs at h with hany h1 h2 h3 h4
  all_goals simp only [Option.some.injEq] at h
  all_goals subst h
  · exact ⟨str "\n\n# Git worktrees\n", by rw [← hcat]; simp, by simp, fun _ => hno _ h1.1⟩
  · exact ⟨str "\n# Git worktrees\n", by simp, by simp, fun _ => hno _ h1.1⟩
  · have hc : content = [] := List.length_eq_zero.mp h3
    subst hc
    refine ⟨str "# Git worktrees\n", by simp, by simp, fun _ line hmem => ?_⟩
    have hl : line = [] := by simpa [strings.Split, strings.splitLoop] using hmem
    rw [hl]
    decide
  · exact ⟨str "\n", by simp, by simp, fun hin => absurd hin (by decide)⟩
  · exact ⟨[], by simp, by simp, fun hin => absurd hin (by decide)⟩

theorem ensureGitignoreEntry.normalize_spec (entry : GoString) :
    strings.HasSuffix (ensureGitignoreEntry.normalize entry) (str "/") = true ∧
    (strings.HasSuffix entry (str "/") = true → ensureGitignoreEntry.normalize entry = entry) ∧
    (strings.HasSuffix entry (str "/") = false →
      ensureGitignoreEntry.normalize entry = entry ++ str "/") := by
  unfold ensureGitignoreEntry.normalize
  cases h : strings.HasSuffix entry (str "/")
  · simp [strings.HasSuffix]
  · simp [h]

/-- C19. With the ignore file as a string: `ensureGitignoreEntry` writes
nothing exactly when some line of the content, trimmed of surrounding
whitespace, equals the entry made to end in `/` or that entry with its trailing
`/` bytes removed. Otherwise it writes the old content, followed by a separator,
followed by the normalised entry and a newline: the old content is a prefix of
what is written, nothing of it is removed or reordered, and the separator
holds the comment `# Git worktrees` only when no line of the old content
contains it. -/
theorem ensureGitignoreEntry_frame (u : Unicode) (content entry : GoString) :
    strings.HasSuffix (ensureGitignoreEntry.normalize entry) (str "/") = true ∧
    (ensureGitignoreEntry u content entry = none ↔
      ∃ line ∈ strings.Split content 10,
        strings.TrimSpace u line = ensureGitignoreEntry.normalize entry ∨
        strings.TrimSpace u line =
          strings.TrimRight (ensureGitignoreEntry.normalize entry) 47) ∧
    (∀ c', ensureGitignoreEntry u content entry = some c' →
      content <+: c' ∧ (ensureGitignoreEntry.normalize entry ++ str "\n") <:+ c' ∧
      ∃ mid, c' = content ++ mid ++ ensureGitignoreEntry.normalize entry ++ str "\n" ∧
        (mid = [] ∨ mid = str "\n" ∨ mid = str "\n# Git worktrees\n" ∨
          mid = str "\n\n# Git worktrees\n" ∨ mid = str "# Git worktrees\n") ∧
        (str "# Git worktrees" <:+: mid →
          ∀ line ∈ strings.Split content 10, ¬ str "# Git worktrees" <:+: line)) := by
  refine ⟨(ensureGitignoreEntry.normalize_spec entry).1,
    ensureGitignoreEntry.body_eq_none u content _, ?_⟩
  intro c' h
  obtain ⟨mid, hc', hmid, hcomment⟩ := ensureGitignoreEntry.body_some u content _ c' h
  refine ⟨?_, ?_, mid, hc', hmid, hcomment⟩
  · exact ⟨mid ++ ensureGitignoreEntry.normalize entry ++ str "\n", by rw [hc']; simp⟩
  · exact ⟨content ++ mid, by rw [hc']; simp⟩

/-! ## C20: the index reads stay in bounds -/

theorem updateConfirmDelete_scrollOffset (u : Unicode) (w : World) (m : model) (k : GoString) :
    ∃ r, m.updateConfirmDelete u w k = some r ∧ r.m.scrollOffset = m.scrollOffset := by
  unfold model.updateConfirmDelete
  split_ifs
  · split
    · split
      · exact ⟨_, rfl, rfl⟩
      · refine ⟨_, rfl, ?_⟩
        dsimp only
        split <;> rfl
    · exact ⟨_, rfl, rfl⟩
  · exact ⟨_, rfl, rfl⟩
  · exact ⟨_, rfl, rfl⟩

theorem updateSearch_scrollOffset (u : Unicode) (m : model) (k : GoString) :
    ∃ r, m.updateSearch u k = some r ∧ r.m.scrollOffset = m.scrollOffset := by
  unfold model.updateSearch
  split_ifs <;> exact ⟨_, rfl, rfl⟩

theorem updateNewBranch_scrollOffset (u : Unicode) (w : World) (m : model) (k : GoString) :
    ∃ r, m.updateNewBranch u w k = some r ∧ r.m.scrollOffset = m.scrollOffset := by
  unfold model.updateNewBranch
  split_ifs
  · exact ⟨_, rfl, rfl⟩
  · split
    · exact ⟨_, rfl, rfl⟩
    · refine ⟨_, rfl, ?_⟩
      dsimp only
      split <;> rfl
  all_goals exact ⟨_, rfl, rfl⟩

theorem updateNormal_scrollOffset (u : Unicode) (w : World) (m : model) (k : GoString)
    (h0 : 0 ≤ m.cursor) :
    ∃ r, m.updateNormal u w k = some r ∧ r.m.scrollOffset = m.scrollOffset := by
  have hread : m.cursor < (m.filtered.length : Int) →
      ∃ wt, index m.filtered m.cursor = some wt := index_of_lt m.filtered m.cursor h0
  apply updateNormal_cases u w m k
    (fun o => ∃ r, o = some r ∧ r.m.scrollOffset = m.scrollOffset)
  · exact ⟨_, rfl, rfl⟩
  · unfold model.caseUp
    split_ifs <;> exact ⟨_, rfl, rfl⟩
  · unfold model.caseDown
    split_ifs <;> exact ⟨_, rfl, rfl⟩
  · exact ⟨_, rfl, rfl⟩
  · exact ⟨_, rfl, rfl⟩
  · unfold model.caseDelete
    split_ifs with hlt
    · obtain ⟨wt, hwt⟩ := hread hlt
      rw [hwt]
      dsimp only
      split_ifs <;> exact ⟨_, rfl, rfl⟩
    · exact ⟨_, rfl, rfl⟩
  · unfold model.caseRefresh
    split <;> exact ⟨_, rfl, rfl⟩
  · unfold model.caseEnter
    split_ifs with hlt
    · obtain ⟨wt, hwt⟩ := hread hlt
      rw [hwt]
      dsimp only
      split <;> exact ⟨_, rfl, rfl⟩
    · exact ⟨_, rfl, rfl⟩
  · exact ⟨_, rfl, rfl⟩

/-- From a model with `cursor >= 0`, `Update` returns for every message and
leaves the scroll offset alone. -/
theorem Update_total (u : Unicode) (w : World) (m : model) (msg : Msg) (h0 : 0 ≤ m.cursor) :
    ∃ r, m.Update u w msg = some r ∧ r.m.scrollOffset = m.scrollOffset := by
  apply Update_cases u w m msg (fun o => ∃ r, o = some r ∧ r.m.scrollOffset = m.scrollOffset)
  · intro a b; exact ⟨_, rfl, rfl⟩
  · exact ⟨_, rfl, rfl⟩
  · exact ⟨_, rfl, rfl⟩
  · intro k _; exact updateConfirmDelete_scrollOffset u w m k
  · intro k _ _; exact updateSearch_scrollOffset u m k
  · intro k _ _; exact updateNewBranch_scrollOffset u w m k
  · intro k _ _ _; exact updateNormal_scrollOffset u w m k h0
  · exact ⟨_, rfl, rfl⟩

theorem scrollOffset_initialModel (repo : Except GoString GoString) (loaded : Option Config)
    (listing : Except GoString (List Worktree)) :
    (initialModel repo loaded listing).scrollOffset = 0 := by
  unfold initialModel
  split
  · rfl
  · split <;> rfl

theorem scrollOffset_of_reachable (u : Unicode) (m : model) (h : Reachable u m) :
    m.scrollOffset = 0 ∧ 0 ≤ m.cursor := by
  induction h with
  | init repo loaded listing =>
    exact ⟨scrollOffset_initialModel _ _ _, by rw [cursor_initialModel]⟩
  | step w msg r hm hstep ih =>
    refine ⟨?_, cursor_nonneg_of_reachable u r.m (Reachable.step w msg r hm hstep)⟩
    obtain ⟨r', hr', hso⟩ := Update_total u w _ msg ih.2
    rw [hstep] at hr'
    cases hr'
    rw [hso, ih.1]

theorem View_total (m : model) (hso : m.scrollOffset = 0) (h0 : 0 ≤ m.cursor) :
    ∃ frame, m.View = some frame := by
  unfold model.View
  split
  · exact ⟨_, rfl⟩
  · dsimp only
    split
    · exact ⟨_, rfl⟩
    · split_ifs
      · exact ⟨_, rfl⟩
      · obtain ⟨rows, hrows, _⟩ :=
          m.viewRows_spec (m.adjustedScrollOffset_of_zero hso h0)
        rw [hrows]
        exact ⟨_, rfl⟩

/-- C20. In every model reachable from the initial model by key, tick,
window-size (and any other) messages, whatever the outside world answers and
whatever the length of the filtered list, `cursor >= 0` (and the scroll offset
is 0). Hence the read `filtered[cursor]` that `d` and `enter` make under the
guard `cursor < len(filtered)` is inside the list, `Update` returns for every
message without a panic, and so does `View`, whose row loop only reads inside
the filtered list. -/
theorem index_reads_in_bounds (u : Unicode) (m : model) (h : Reachable u m) :
    0 ≤ m.cursor ∧ m.scrollOffset = 0 ∧
    (m.cursor < (m.filtered.length : Int) → ∃ wt, index m.filtered m.cursor = some wt) ∧
    (∀ (w : World) (msg : Msg), ∃ r, m.Update u w msg = some r) ∧
    (∃ frame, m.View = some frame) ∧
    (m.filtered ≠ [] → ∃ rows, m.viewRows = some rows ∧
      ∀ k : Nat, k < rows.length → ∃ wt,
        index m.filtered (m.adjustedScrollOffset + k) = some wt) := by
  obtain ⟨hso, h0⟩ := scrollOffset_of_reachable u m h
  refine ⟨h0, hso, index_of_lt m.filtered m.cursor h0, ?_, View_total m hso h0, ?_⟩
  · intro w msg
    obtain ⟨r, hr, _⟩ := Update_total u w m msg h0
    exact ⟨r, hr⟩
  · intro _
    obtain ⟨rows, hrows, _, hk, _⟩ :=
      m.viewRows_spec (m.adjustedScrollOffset_of_zero hso h0)
    exact ⟨rows, hrows, fun k hklt => (hk k hklt).imp (fun _ hwt => hwt.1)⟩

theorem index_reads_in_bounds_witness :
    0 ≤ overshotModel.cursor ∧ overshotModel.scrollOffset = 0 ∧
    (overshotModel.cursor < (overshotModel.filtered.length : Int) →
      ∃ wt, index overshotModel.filtered overshotModel.cursor = some wt) ∧
    (∀ (w : World) (msg : Msg), ∃ r, overshotModel.Update Unicode.ascii w msg = some r) ∧
    (∃ frame, overshotModel.View = some frame) ∧
    (overshotModel.filtered ≠ [] → ∃ rows, overshotModel.viewRows = some rows ∧
      ∀ k : Nat, k < rows.length → ∃ wt,
        index overshotModel.filtered (overshotModel.adjustedScrollOffset + k) = some wt) :=
  index_reads_in_bounds Unicode.ascii overshotModel
    (reachable_run Unicode.ascii (keys world0 ["down", "/", "m", "a", "i", "n"]) exampleModel
      overshotModel (Reachable.init _ _ _) (by decide))

end Gt
